import Mathlib

-- Verification of the scheduling core of the CSC-2400 term project:
-- the exact weighted-interval-scheduling dynamic program
-- (dynamic_scheduler.py), the ant-colony metaheuristic
-- (ant_colony_scheduler.py) and the greedy baseline (greedy_scheduler.py).
-- Python floats are modelled as rationals; Python dicts as association
-- lists in insertion order; the random module as explicit draw streams.

set_option maxHeartbeats 1000000

-- The rational arithmetic kernels are irreducible by default, which
-- blocks decide-style evaluation of the schedulers on concrete inputs;
-- making them semireducible restores it (the kernel itself ignores
-- reducibility attributes, so proofs are unaffected).
attribute [local semireducible] Rat.add Rat.mul Rat.sub Rat.inv

/-- Task record mirroring the Observation class of models.py.  The fields
ra and dec are carried for fidelity; the schedulers read only start, stop,
duration and weight.  The Python attribute named end is called stop here
because end is a Lean keyword. -/
structure Obs where
  oid : ℕ
  start : ℚ
  stop : ℚ
  duration : ℚ
  ra : ℚ
  dec : ℚ
  weight : ℚ
deriving DecidableEq, Inhabited

/-- Two tasks are compatible (non-overlapping) when one finishes no later
than the other starts. -/
def compatObs (a b : Obs) : Prop := a.stop ≤ b.start ∨ b.stop ≤ a.start

instance (a b : Obs) : Decidable (compatObs a b) := by
  unfold compatObs; infer_instance

/-- Total (transformed) weight of a schedule: the weights of its members
summed. -/
def totalWt (wt : Obs → ℚ) (l : List Obs) : ℚ := (l.map wt).sum

/-- Compatibility of the tasks sitting at two positions of the input
list. -/
def compatAt (obs : List Obs) (i j : ℕ) : Prop :=
  compatObs (obs.getD i default) (obs.getD j default)

instance (obs : List Obs) (i j : ℕ) : Decidable (compatAt obs i j) := by
  unfold compatAt; infer_instance

/-- All pairwise compatible index subsets of the input (the subsets a
brute-force enumeration would consider). -/
def feasSets (obs : List Obs) : Finset (Finset ℕ) :=
  (Finset.range obs.length).powerset.filter
    (fun S => ∀ i ∈ S, ∀ j ∈ S, i ≠ j → compatAt obs i j)

/-- Total weight of a set of positions of the input list. -/
def sumIdx (wt : Obs → ℚ) (obs : List Obs) (S : Finset ℕ) : ℚ :=
  ∑ i ∈ S, wt (obs.getD i default)

/-- Maximum total weight achievable by any pairwise non-overlapping subset
of the input, as described in the specification (brute-force optimum);
the empty subset always qualifies. -/
def bruteMax (wt : Obs → ℚ) (obs : List Obs) : ℚ :=
  (feasSets obs).sup' ⟨∅, by simp [feasSets]⟩ (sumIdx wt obs)

namespace DP

variable (wt : Obs → ℚ) (obs : List Obs)

/-- The starts array of dynamic_scheduler.py. -/
def starts (i : ℕ) : ℚ := (obs.getD i default).start

/-- The ends array of dynamic_scheduler.py. -/
def ends (i : ℕ) : ℚ := (obs.getD i default).stop

/-- The weights array of dynamic_scheduler.py holds
o.weight * max(o.duration, 1) ** 0.25.  The fourth-root transform is
real-valued, so the development is parameterized by the per-task
transformed weight wt; the specification calls the scoring transform
configurable. -/
def wArr (i : ℕ) : ℚ := wt (obs.getD i default)

/-- The list indices of dynamic_scheduler.py: task indices sorted by end
time.  Python sort is stable, and a stable sort under a total preorder
has a unique result, so the stable insertionSort models it exactly. -/
def indices : List ℕ :=
  List.insertionSort (fun i j => ends obs i ≤ ends obs j)
    (List.range obs.length)

/-- End time at a position of the end-sorted order (ends_s). -/
def endS (k : ℕ) : ℚ := ends obs ((indices obs).getD k 0)

/-- Start time at a position of the end-sorted order (starts_s). -/
def startS (k : ℕ) : ℚ := starts obs ((indices obs).getD k 0)

/-- Transformed weight at a position of the end-sorted order
(weights_s). -/
def wS (k : ℕ) : ℚ := wArr wt obs ((indices obs).getD k 0)

/-- The sorted end-time array ends_s as a list. -/
def endsList : List ℚ := (indices obs).map (ends obs)

/-- bisect.bisect_right(ends_s, starts_s[i]): on a sorted list the
rightmost insertion point equals the number of entries that are at most
the query, so pSucc i = p[i] + 1 where p is the predecessor array of
dynamic_scheduler.py. -/
def pSucc (i : ℕ) : ℕ :=
  (endsList obs).countP (fun e => decide (e ≤ startS obs i))

/-- One filling step of the DP loop of dynamic_scheduler.py: given the
cells written so far, compute cell i+1.  The read of M[p(i)+1] hits a
not-yet-written cell when p(i)+1 > i, and such a cell still holds the
initial 0.0, which getD on the unfinished table reproduces; the 0 < pSucc
guard is the j >= 0 check of the source. -/
def Mnext (t : List ℚ) (i : ℕ) : ℚ :=
  let incl := wS wt obs i +
    (if 0 < pSucc obs i then t.getD (pSucc obs i) 0 else 0)
  let excl := t.getD i 0
  if excl < incl then incl else excl

/-- The DP table M of dynamic_scheduler.py after i filling steps: cells
0..i hold their final values. -/
def Mtab : ℕ → List ℚ
  | 0 => [0]
  | i + 1 => Mtab i ++ [Mnext wt obs (Mtab i) i]

/-- Cell i of the DP table. -/
def M (i : ℕ) : ℚ := (Mtab wt obs i).getD i 0

/-- Schedule reconstruction loop of dynamic_scheduler.py.  The Python
while-loop walks a counter i from n down to 0; on inclusion it stores
indices[i-1] and jumps to p(i-1)+1, and the final answer maps the stored
original indices through obs_list.  Here the loop stores the sorted
position i-1 and applies indices in the final mapping, which composes to
the same output.  The source loop does not terminate on some invalid
inputs (a task with end <= start can make the counter stall), so the
model carries fuel; none models a run exceeding the fuel, which cannot
happen on valid inputs with fuel n.  Prepending to the accumulator plays
the role of the append-then-reverse in the source. -/
def recon : ℕ → ℕ → List ℕ → Option (List ℕ)
  | _, 0, acc => some acc
  | 0, _ + 1, _ => none
  | fuel + 1, i + 1, acc =>
    let incl := wS wt obs i + (if 0 < pSucc obs i then M wt obs (pSucc obs i) else 0)
    if M wt obs i ≤ incl then recon fuel (pSucc obs i) (i :: acc)
    else recon fuel i acc

/-- dynamic_weighted_interval_scheduling of dynamic_scheduler.py, with
the transformed-weight array abstracted as wt. -/
def dynamic_weighted_interval_scheduling : Option (List Obs) :=
  if obs.length = 0 then some [] else
  (recon wt obs obs.length obs.length []).map
    (fun l => l.map (fun k => obs.getD ((indices obs).getD k 0) default))

/-- Compatibility of the tasks at two positions of the end-sorted
order. -/
def posCompat (p q : ℕ) : Prop :=
  endS obs p ≤ startS obs q ∨ endS obs q ≤ startS obs p

instance (p q : ℕ) : Decidable (posCompat obs p q) := by
  unfold posCompat; infer_instance

/-- All pairwise compatible position subsets among the first k tasks of
the end-sorted order. -/
def okSets (k : ℕ) : Finset (Finset ℕ) :=
  (Finset.range k).powerset.filter
    (fun S => ∀ p ∈ S, ∀ q ∈ S, p ≠ q → posCompat obs p q)

/-- Total transformed weight of a set of positions of the end-sorted
order. -/
def sumWS (S : Finset ℕ) : ℚ := ∑ p ∈ S, wS wt obs p

/-- Optimal total transformed weight over compatible subsets of the
first k tasks of the end-sorted order. -/
def OPT (k : ℕ) : ℚ :=
  (okSets obs k).sup' ⟨∅, by simp [okSets]⟩ (sumWS wt obs)

end DP

namespace Greedy

/-- The descending-weight sort of greedy_scheduler.py (Python sorted with
reverse=True is stable descending). -/
def gsort (observations : List Obs) : List Obs :=
  List.insertionSort (fun a b => b.weight ≤ a.weight) observations

/-- One step of the linear feasibility scan of greedy_scheduler.py; the
state is the schedule so far and the current_end marker. -/
def gstep (s : List Obs × Option ℚ) (o : Obs) : List Obs × Option ℚ :=
  match s.2 with
  | none => (s.1 ++ [o], some o.stop)
  | some ce => if ce ≤ o.start then (s.1 ++ [o], some o.stop) else s

/-- greedy_schedule of greedy_scheduler.py. -/
def greedy_schedule (observations : List Obs) : List Obs :=
  ((gsort observations).foldl gstep ([], none)).1

end Greedy

/-- Configuration parameters of ant_colony_schedule (the Python keyword
arguments).  The float exponents alpha and beta are modelled as naturals,
covering the integral defaults alpha=1.0 and beta=2.0 (Python gives
0.0 ** 0.0 = 1.0, matching the rational 0 ^ 0 = 1). -/
structure ACOConfig where
  num_ants : ℕ
  alpha : ℕ
  beta : ℕ
  evap : ℚ
  iterations : ℕ
  top_k : ℕ
deriving DecidableEq

/-- Explicit random source standing for the random module: a stream of
draws for random.randrange (reduced mod n at the call site) and one for
random.random, consumed at a shared advancing position so that every
sequence of draws of the source program corresponds to some streams. -/
structure RS where
  ints : ℕ → ℕ
  reals : ℕ → ℚ

namespace ACO

variable (observations : List Obs) (slew : ℕ → ℕ → ℚ) (cfg : ACOConfig)

/-- Start time of task i (the starts list of ant_colony_scheduler.py). -/
def starts (i : ℕ) : ℚ := (observations.getD i default).start

/-- End time of task i (the ends list of ant_colony_scheduler.py). -/
def ends (i : ℕ) : ℚ := (observations.getD i default).stop

/-- Raw weight of task i. -/
def weightAt (i : ℕ) : ℚ := (observations.getD i default).weight

/-- order_by_start of ant_colony_scheduler.py: task indices sorted by
start time (stable). -/
def order_by_start : List ℕ :=
  List.insertionSort
    (fun i j => starts observations i ≤ starts observations j)
    (List.range observations.length)

/-- bisect_left([starts[k] for k in order_by_start], ends[i]): on a
sorted list the leftmost insertion point equals the number of entries
strictly below the query. -/
def posFirst (i : ℕ) : ℕ :=
  ((order_by_start observations).map (starts observations)).countP
    (fun s => decide (s < ends observations i))

/-- The scanned slice order_by_start[pos : min(len, pos + top_k * 5)]. -/
def window (i : ℕ) : List ℕ :=
  ((order_by_start observations).drop (posFirst observations i)).take (cfg.top_k * 5)

/-- The scored candidate pairs (h, idx) collected in the scan, with
h = weight / max(slew, 1). -/
def candScored (i : ℕ) : List (ℚ × ℕ) :=
  (window observations cfg i).map
    (fun idx => ((observations.getD idx default).weight / max (slew i idx) 1, idx))

/-- cand.sort(reverse=True) of the source: stable descending sort of the
(score, index) pairs in lexicographic tuple order. -/
def succSort (i : ℕ) : List (ℚ × ℕ) :=
  List.insertionSort (fun a b => b.1 < a.1 ∨ (b.1 = a.1 ∧ b.2 ≤ a.2))
    (candScored observations slew cfg i)

/-- successors[i] of ant_colony_scheduler.py: the top_k best-scoring
window indices. -/
def successors (i : ℕ) : List ℕ :=
  ((succSort observations slew cfg i).take cfg.top_k).map Prod.snd

/-- The constant initial trail strength init_pher = 1.0. -/
def init_pher : ℚ := 1

/-- The initial sparse pheromone structure: one association list (dict in
insertion order) per task, holding init_pher on every candidate edge. -/
def pher0 : List (List (ℕ × ℚ)) :=
  (List.range observations.length).map
    (fun i => (successors observations slew cfg i).map (fun j => (j, init_pher)))

/-- heuristic[i] of ant_colony_scheduler.py: the precomputed heuristic
attractiveness of each candidate edge. -/
def heuristicRow (i : ℕ) : List (ℕ × ℚ) :=
  (successors observations slew cfg i).map
    (fun j => (j, (observations.getD j default).weight / max (slew i j) 1))

/-- The candidate list an ant builds from the last chosen task: unused,
start-feasible successors carrying a positive trail or heuristic, scored
tau * eta with tau = trail ** alpha and eta = heuristic ** beta. -/
def candList (pher : List (List (ℕ × ℚ))) (used : List Bool) (last : ℕ) :
    List (ℚ × ℕ) :=
  (successors observations slew cfg last).filterMap (fun j =>
    if used.getD j false then none
    else if ends observations last ≤ starts observations j then
      let tau := (((pher.getD last []).lookup j).getD 0) ^ cfg.alpha
      let eta := (((heuristicRow observations slew cfg last).lookup j).getD 0) ^ cfg.beta
      if tau ≤ 0 ∧ eta ≤ 0 then none else some (tau * eta, j)
    else none)

/-- The cumulative-weight scan of the roulette selection: chosen starts
as the last candidate and becomes the first one whose running prefix sum
reaches the draw. -/
def pickScan : List (ℚ × ℕ) → ℚ → ℚ → ℕ → ℕ
  | [], _, _, d => d
  | (s, j) :: rest, r, acc, d => if r ≤ acc + s then j else pickScan rest r (acc + s) d

/-- One extension decision of build_ant_tour: none when the candidate
list is empty (the tour breaks); the deterministic highest-scoring
fallback when the selection weights sum to zero (no draw consumed);
otherwise proportional sampling consuming one draw.  Returns the chosen
successor and the advanced draw position. -/
def chooseNext (pher : List (List (ℕ × ℚ))) (used : List Bool) (last : ℕ)
    (rs : RS) (k : ℕ) : Option ℕ × ℕ :=
  let cand := candList observations slew cfg pher used last
  if cand.isEmpty then (none, k)
  else
    let total := (cand.map Prod.fst).sum
    if total ≤ 0 then
      (some ((List.insertionSort
        (fun a b => b.1 < a.1 ∨ (b.1 = a.1 ∧ b.2 ≤ a.2)) cand).headD (0, 0)).2, k)
    else
      (some (pickScan cand (rs.reals k * total) 0 (cand.getLastD (0, 0)).2), k + 1)

/-- The while-loop of build_ant_tour, with fuel.  Each pass appends one
previously unused task, so fuel n is never exhausted before the natural
break. -/
def tourLoop (pher : List (List (ℕ × ℚ))) (rs : RS) :
    ℕ → List ℕ → List Bool → ℕ → List ℕ × ℕ
  | 0, sel, _, k => (sel, k)
  | fuel + 1, sel, used, k =>
    match chooseNext observations slew cfg pher used (sel.getLastD 0) rs k with
    | (none, k2) => (sel, k2)
    | (some j, k2) => tourLoop pher rs fuel (sel ++ [j]) (used.set j true) k2

/-- build_ant_tour of ant_colony_scheduler.py: seed uniformly at random,
then extend until no feasible unused successor remains. -/
def build_ant_tour (pher : List (List (ℕ × ℚ))) (rs : RS) (k : ℕ) :
    List ℕ × ℕ :=
  let s0 := rs.ints k % observations.length
  tourLoop observations slew cfg pher rs observations.length [s0]
    ((List.replicate observations.length false).set s0 true) (k + 1)

/-- The mutable state of one ACO run: the pheromone table, the tracked
global best, and the position in the draw streams. -/
structure AState where
  pher : List (List (ℕ × ℚ))
  bestScore : ℚ
  bestSchedule : List ℕ
  k : ℕ
deriving DecidableEq

/-- Raw-weight score of a tour. -/
def scoreOf (tour : List ℕ) : ℚ := (tour.map (weightAt observations)).sum

/-- One ant of the per-iteration loop: build a tour, update the
iteration best (local_best) and the global best. -/
def antStep (rs : RS) (s : AState × ℚ × Option (List ℕ)) :
    AState × ℚ × Option (List ℕ) :=
  let st := s.1
  let res := build_ant_tour observations slew cfg st.pher rs st.k
  let score := scoreOf observations res.1
  let ls := s.2.1
  let lb := s.2.2
  let ls2 := if ls < score then score else ls
  let lb2 := if ls < score then some res.1 else lb
  let bs2 := if st.bestScore < score then score else st.bestScore
  let bsc2 := if st.bestScore < score then res.1 else st.bestSchedule
  (⟨st.pher, bs2, bsc2, res.2⟩, ls2, lb2)

/-- The num_ants tour constructions of one iteration, starting from
local_best_score = 0.0 and local_best = None. -/
def antsPhase (rs : RS) (s : AState) : AState × ℚ × Option (List ℕ) :=
  (List.range cfg.num_ants).foldl
    (fun acc _ => antStep observations slew cfg rs acc) (s, 0, none)

/-- The pruning threshold 1e-8 of the evaporation pass. -/
def eps : ℚ := 1 / 100000000

/-- Evaporation of one pheromone row: scale by (1 - evap) and drop
entries below eps (dict deletion preserves the order of the rest). -/
def evapRow (row : List (ℕ × ℚ)) : List (ℕ × ℚ) :=
  (row.map (fun p => (p.1, p.2 * (1 - cfg.evap)))).filter
    (fun p => !decide (p.2 < eps))

/-- The evaporation pass over the whole table (skipping empty rows scales
nothing, so the plain map is the same). -/
def evapPhase (pher : List (List (ℕ × ℚ))) : List (List (ℕ × ℚ)) :=
  pher.map (evapRow cfg)

/-- Deposit on one consecutive edge of the iteration-best tour: increment
an existing trail, reinstate a pruned candidate edge at init_pher +
deposit, and ignore non-candidate edges. -/
def depositEdge (dep : ℚ) (pher : List (List (ℕ × ℚ))) (ab : ℕ × ℕ) :
    List (List (ℕ × ℚ)) :=
  let row := pher.getD ab.1 []
  if (row.lookup ab.2).isSome then
    pher.set ab.1 (row.map (fun p => if p.1 = ab.2 then (p.1, p.2 + dep) else p))
  else if ab.2 ∈ successors observations slew cfg ab.1 then
    pher.set ab.1 (row ++ [(ab.2, init_pher + dep)])
  else pher

/-- The deposit pass: nothing when local_best is None or empty (Python
truthiness), else score / (1 + length) on each consecutive edge. -/
def depositPhase (ls : ℚ) (lb : Option (List ℕ)) (pher : List (List (ℕ × ℚ))) :
    List (List (ℕ × ℚ)) :=
  match lb with
  | none => pher
  | some tour =>
    if tour.isEmpty then pher
    else (tour.zip tour.tail).foldl
      (depositEdge observations slew cfg (ls / (1 + (tour.length : ℚ)))) pher

/-- One full iteration of the main ACO loop: ants, evaporation, deposit. -/
def iterOnce (rs : RS) (s : AState) : AState :=
  let a := antsPhase observations slew cfg rs s
  let p1 := evapPhase cfg a.1.pher
  let p2 := depositPhase observations slew cfg a.2.1 a.2.2 p1
  ⟨p2, a.1.bestScore, a.1.bestSchedule, a.1.k⟩

/-- The state entering the main loop: initial pheromone, best_score 0.0,
best_schedule empty, streams at the origin. -/
def state0 : AState := ⟨pher0 observations slew cfg, 0, [], 0⟩

/-- The run state after t iterations of the main loop. -/
def runState (rs : RS) (t : ℕ) : AState :=
  (iterOnce observations slew cfg rs)^[t] (state0 observations slew cfg)

/-- The unused, start-feasible candidate successors of the last chosen
task, before the positivity filter of the source loop (the set the
specification quantifies over). -/
def feasibleUnused (used : List Bool) (last : ℕ) : List ℕ :=
  (successors observations slew cfg last).filter
    (fun j => !used.getD j false && decide (ends observations last ≤ starts observations j))

/-- The selection weight trail ** alpha * heuristic ** beta of the edge
from last to j. -/
def selWeight (pher : List (List (ℕ × ℚ))) (last j : ℕ) : ℚ :=
  ((((pher.getD last []).lookup j).getD 0) ^ cfg.alpha) *
  ((((heuristicRow observations slew cfg last).lookup j).getD 0) ^ cfg.beta)

/-- The pheromone sparsity invariant: the table has one row per task and
every key of row a is a candidate successor of a. -/
def pherInv (pher : List (List (ℕ × ℚ))) : Prop :=
  pher.length = observations.length ∧
  ∀ a : ℕ, ∀ p ∈ pher.getD a [], p.1 ∈ successors observations slew cfg a

/-- ant_colony_schedule of ant_colony_scheduler.py: the global-best tour
after all iterations, mapped to tasks and stably sorted by start time. -/
def ant_colony_schedule (rs : RS) : List Obs :=
  if observations.length = 0 then [] else
  let sF := runState observations slew cfg rs cfg.iterations
  if sF.bestSchedule.isEmpty then []
  else List.insertionSort (fun a b => a.start ≤ b.start)
    (sF.bestSchedule.map (fun i => observations.getD i default))

end ACO

-- Concrete inputs used to instantiate the claims.

/-- Scenario A of the specification: A(0,10,5), B(10,20,5), C(5,15,100). -/
def obsA : List Obs :=
  [⟨0, 0, 10, 10, 0, 0, 5⟩, ⟨1, 10, 20, 10, 0, 0, 5⟩, ⟨2, 5, 15, 10, 0, 0, 100⟩]

/-- An input containing an invalid interval (task 0 has end = start = 0)
next to a valid task. -/
def obsBad : List Obs :=
  [⟨0, 0, 0, 0, 0, 0, 0⟩, ⟨1, -5, 10, 15, 0, 0, 100⟩]

/-- A single task with end < start: on this input the reconstruction
loop of the source never terminates. -/
def obsBad1 : List Obs := [⟨0, 5, 3, 0, 0, 0, 1⟩]

/-- Two valid zero-weight, non-overlapping tasks. -/
def obsZ : List Obs := [⟨0, 0, 1, 1, 0, 0, 0⟩, ⟨1, 2, 3, 1, 0, 0, 0⟩]

/-- Two valid positive-weight, non-overlapping tasks. -/
def obsP : List Obs := [⟨0, 0, 1, 1, 0, 0, 2⟩, ⟨1, 2, 3, 1, 0, 0, 3⟩]

/-- A zero slew-time matrix. -/
def slew0 : ℕ → ℕ → ℚ := fun _ _ => 0

/-- A constant-zero random source. -/
def rs0 : RS := ⟨fun _ => 0, fun _ => 0⟩

/-- A random source whose integer draws are the constant 1. -/
def rs1 : RS := ⟨fun _ => 1, fun _ => 0⟩

/-- One ant, alpha 1, beta 2, full evaporation, two iterations: after
the first iteration every trail is pruned. -/
def cfgZ : ACOConfig := ⟨1, 1, 2, 1, 2, 50⟩

/-- Two ants, defaults alpha 1 beta 2, evaporation 3/10, three
iterations. -/
def cfgP : ACOConfig := ⟨2, 1, 2, 3 / 10, 3, 50⟩

-- ===================================================================
-- Theorems
-- ===================================================================

theorem compatObs_symm {a b : Obs} (h : compatObs a b) : compatObs b a := h.symm

theorem feasSets_nonempty (obs : List Obs) : (feasSets obs).Nonempty :=
  ⟨∅, by simp [feasSets]⟩

theorem mem_feasSets {obs : List Obs} {S : Finset ℕ} :
    S ∈ feasSets obs ↔
      (∀ i ∈ S, i < obs.length) ∧
        ∀ i ∈ S, ∀ j ∈ S, i ≠ j → compatAt obs i j := by
  rw [feasSets, Finset.mem_filter, Finset.mem_powerset, Finset.subset_iff]
  simp only [Finset.mem_range]

theorem le_bruteMax {wt : Obs → ℚ} {obs : List Obs} {S : Finset ℕ}
    (h : S ∈ feasSets obs) : sumIdx wt obs S ≤ bruteMax wt obs :=
  Finset.le_sup' (sumIdx wt obs) h

theorem bruteMax_le {wt : Obs → ℚ} {obs : List Obs} {a : ℚ}
    (h : ∀ S ∈ feasSets obs, sumIdx wt obs S ≤ a) : bruteMax wt obs ≤ a :=
  Finset.sup'_le _ _ h

/-- On a sorted list, membership count of a downward-closed predicate
characterizes positions: position j satisfies the predicate exactly when
j lies below the count.  This is the defining property of the bisect
functions on sorted arrays. -/
theorem sorted_countP_char (p : ℚ → Bool)
    (hp : ∀ a b : ℚ, a ≤ b → p b = true → p a = true) :
    ∀ (l : List ℚ), l.Pairwise (· ≤ ·) → ∀ j : ℕ, j < l.length →
      (j < l.countP p ↔ p (l.getD j 0) = true) := by
  intro l
  induction l with
  | nil => intro _ j hj; simp at hj
  | cons a t ih =>
    intro hs j hj
    have hs2 := List.pairwise_cons.mp hs
    rcases Nat.eq_zero_or_pos j with hj0 | hjpos
    · subst hj0
      simp only [List.countP_cons, List.getD_cons_zero]
      by_cases hpa : p a = true
      · simp [hpa]
      · constructor
        · intro hlt
          have hz : t.countP p = 0 := by
            rw [List.countP_eq_zero]
            intro e he hpe
            exact hpa (hp a e (hs2.1 e he) hpe)
          rw [hz, if_neg hpa] at hlt
          omega
        · intro h; exact absurd h hpa
    · obtain ⟨j2, rfl⟩ := Nat.exists_eq_add_of_lt hjpos
      simp only [Nat.zero_add] at *
      have hj2 : j2 < t.length := by simpa using hj
      simp only [List.countP_cons, List.getD_cons_succ]
      by_cases hpa : p a = true
      · simp only [hpa, if_pos]
        rw [← ih hs2.2 j2 hj2]
        omega
      · have hz : t.countP p = 0 := by
          rw [List.countP_eq_zero]
          intro e he hpe
          exact hpa (hp a e (hs2.1 e he) hpe)
        rw [hz, if_neg hpa]
        constructor
        · intro h; omega
        · intro h
          have hmem : t.getD j2 0 ∈ t := by
            rw [List.getD_eq_getElem t 0 hj2]
            exact List.getElem_mem hj2
          exact absurd (hp a _ (hs2.1 _ hmem) h) hpa

/-- The branchless form of the Python idiom incl if excl < incl else
excl. -/
theorem ite_lt_eq_max (a b : ℚ) : (if a < b then b else a) = max a b := by
  rcases le_or_lt b a with h | h
  · rw [if_neg (not_lt.mpr h), max_eq_left h]
  · rw [if_pos h, max_eq_right h.le]

namespace DP

variable (wt : Obs → ℚ) (obs : List Obs)

theorem indices_perm : (indices obs).Perm (List.range obs.length) :=
  List.perm_insertionSort _ _

theorem indices_length : (indices obs).length = obs.length := by
  simpa using (indices_perm obs).length_eq

theorem mem_indices {i : ℕ} : i ∈ indices obs ↔ i < obs.length := by
  rw [(indices_perm obs).mem_iff, List.mem_range]

theorem indices_sorted :
    (indices obs).Pairwise (fun i j => ends obs i ≤ ends obs j) := by
  haveI : IsTotal ℕ (fun i j => ends obs i ≤ ends obs j) :=
    ⟨fun a b => le_total _ _⟩
  haveI : IsTrans ℕ (fun i j => ends obs i ≤ ends obs j) :=
    ⟨fun a b c hab hbc => le_trans hab hbc⟩
  exact List.sorted_insertionSort _ _

theorem indices_nodup : (indices obs).Nodup :=
  ((indices_perm obs).nodup_iff).mpr (List.nodup_range _)

theorem indices_getD_lt {k : ℕ} (hk : k < obs.length) :
    (indices obs).getD k 0 < obs.length := by
  have hk2 : k < (indices obs).length := by rw [indices_length]; exact hk
  rw [List.getD_eq_getElem _ _ hk2]
  exact (mem_indices obs).mp (List.getElem_mem hk2)

theorem endsList_length : (endsList obs).length = obs.length := by
  simp [endsList, indices_length]

theorem endsList_getD {k : ℕ} (hk : k < obs.length) :
    (endsList obs).getD k 0 = endS obs k := by
  have hk2 : k < (indices obs).length := by rw [indices_length]; exact hk
  have hk3 : k < ((indices obs).map (ends obs)).length := by
    rw [List.length_map, indices_length]; exact hk
  show ((indices obs).map (ends obs)).getD k 0 = ends obs ((indices obs).getD k 0)
  rw [List.getD_eq_getElem _ _ hk3, List.getElem_map, List.getD_eq_getElem _ _ hk2]

theorem endsList_sorted : (endsList obs).Pairwise (· ≤ ·) := by
  rw [endsList, List.pairwise_map]
  exact indices_sorted obs

/-- End times are monotone along the end-sorted order. -/
theorem endS_mono {j k : ℕ} (hjk : j ≤ k) (hk : k < obs.length) :
    endS obs j ≤ endS obs k := by
  rcases eq_or_lt_of_le hjk with rfl | hlt
  · exact le_refl _
  · have hp := (List.pairwise_iff_get).mp (indices_sorted obs)
    have hkl : k < (indices obs).length := by rw [indices_length]; exact hk
    have hjl : j < (indices obs).length := lt_trans (by omega) hkl
    have := hp ⟨j, hjl⟩ ⟨k, hkl⟩ hlt
    show ends obs ((indices obs).getD j 0) ≤ ends obs ((indices obs).getD k 0)
    rw [List.getD_eq_getElem _ _ hjl, List.getD_eq_getElem _ _ hkl]
    simpa [List.get_eq_getElem] using this

/-- Validity transfer: on a valid input every position of the sorted
order names a task with start < end. -/
theorem startS_lt_endS (V : ∀ o ∈ obs, o.start < o.stop) {k : ℕ}
    (hk : k < obs.length) : startS obs k < endS obs k := by
  have hlt := indices_getD_lt obs hk
  have hmem : obs.getD ((indices obs).getD k 0) default ∈ obs := by
    rw [List.getD_eq_getElem _ _ hlt]
    exact List.getElem_mem hlt
  exact V _ hmem

theorem pSucc_le_length (i : ℕ) : pSucc obs i ≤ obs.length := by
  rw [pSucc, ← endsList_length obs]
  exact List.countP_le_length _

/-- The bisect characterization: position k precedes the insertion point
exactly when its end time is at most the queried start time. -/
theorem pSucc_char {i k : ℕ} (hk : k < obs.length) :
    k < pSucc obs i ↔ endS obs k ≤ startS obs i := by
  have h := sorted_countP_char (fun e => decide (e ≤ startS obs i))
    (fun a b hab hb => by
      simp only [decide_eq_true_eq] at *
      exact le_trans hab hb)
    (endsList obs) (endsList_sorted obs) k (by rw [endsList_length]; exact hk)
  rw [pSucc, h, endsList_getD obs hk, decide_eq_true_eq]

/-- On valid inputs the predecessor link points strictly backwards. -/
theorem pSucc_le_self (V : ∀ o ∈ obs, o.start < o.stop) {i : ℕ}
    (hi : i < obs.length) : pSucc obs i ≤ i := by
  by_contra h
  push_neg at h
  have := (pSucc_char obs hi).mp h
  exact absurd this (not_le.mpr (startS_lt_endS obs V hi))

theorem mem_okSets {k : ℕ} {S : Finset ℕ} :
    S ∈ okSets obs k ↔
      (∀ p ∈ S, p < k) ∧ ∀ p ∈ S, ∀ q ∈ S, p ≠ q → posCompat obs p q := by
  rw [okSets, Finset.mem_filter, Finset.mem_powerset, Finset.subset_iff]
  simp only [Finset.mem_range]

theorem empty_mem_okSets (k : ℕ) : ∅ ∈ okSets obs k := by
  rw [mem_okSets]
  simp

theorem sumWS_def (S : Finset ℕ) : sumWS wt obs S = ∑ p ∈ S, wS wt obs p := rfl

theorem le_OPT {k : ℕ} {S : Finset ℕ} (h : S ∈ okSets obs k) :
    sumWS wt obs S ≤ OPT wt obs k :=
  Finset.le_sup' (sumWS wt obs) h

theorem OPT_le {k : ℕ} {a : ℚ}
    (h : ∀ S ∈ okSets obs k, sumWS wt obs S ≤ a) : OPT wt obs k ≤ a :=
  Finset.sup'_le _ _ h

theorem OPT_nonneg (k : ℕ) : 0 ≤ OPT wt obs k := by
  have h := le_OPT wt obs (empty_mem_okSets obs k)
  simpa [sumWS_def] using h

theorem OPT_zero : OPT wt obs 0 = 0 := by
  refine le_antisymm ?_ (OPT_nonneg wt obs 0)
  apply OPT_le
  intro S hS
  rw [mem_okSets] at hS
  have hS0 : S = ∅ :=
    Finset.eq_empty_of_forall_not_mem
      (fun p hp => absurd (hS.1 p hp) (Nat.not_lt_zero p))
  subst hS0
  simp [sumWS_def]

theorem OPT_mono {j k : ℕ} (hjk : j ≤ k) : OPT wt obs j ≤ OPT wt obs k := by
  apply OPT_le
  intro S hS
  refine le_OPT wt obs ?_
  rw [mem_okSets] at *
  exact ⟨fun p hp => lt_of_lt_of_le (hS.1 p hp) hjk, hS.2⟩

/-- The Bellman recursion satisfied by the brute-force optimum over the
end-sorted prefix: the best subset of the first k+1 tasks either skips
task k, or contains it together with a best subset of the tasks
compatible with it, which are exactly the first p(k)+1. -/
theorem OPT_rec (V : ∀ o ∈ obs, o.start < o.stop) {k : ℕ}
    (hk : k < obs.length) :
    OPT wt obs (k + 1) =
      max (OPT wt obs k) (wS wt obs k + OPT wt obs (pSucc obs k)) := by
  have hps := pSucc_le_self obs V hk
  apply le_antisymm
  · apply OPT_le
    intro S hS
    rw [mem_okSets] at hS
    by_cases hkS : k ∈ S
    · have herase : S.erase k ∈ okSets obs (pSucc obs k) := by
        rw [mem_okSets]
        constructor
        · intro p hp
          have hpS := Finset.mem_of_mem_erase hp
          have hpk : p ≠ k := Finset.ne_of_mem_erase hp
          have hplt : p < k := by
            have := hS.1 p hpS
            omega
          have hpn : p < obs.length := lt_trans hplt hk
          rcases hS.2 p hpS k hkS hpk with hc | hc
          · exact (pSucc_char obs hpn).mpr hc
          · exfalso
            have h1 : startS obs p < endS obs p := startS_lt_endS obs V hpn
            have h2 : endS obs p ≤ endS obs k := endS_mono obs (le_of_lt hplt) hk
            linarith
        · intro p hp q hq hpq
          exact hS.2 p (Finset.mem_of_mem_erase hp) q (Finset.mem_of_mem_erase hq) hpq
      have hsum : sumWS wt obs S
          = wS wt obs k + sumWS wt obs (S.erase k) := by
        rw [sumWS_def, sumWS_def]
        exact (Finset.add_sum_erase S _ hkS).symm
      rw [hsum]
      exact le_max_of_le_right (add_le_add_left (le_OPT wt obs herase) _)
    · refine le_max_of_le_left (le_OPT wt obs ?_)
      rw [mem_okSets]
      refine ⟨fun p hp => ?_, hS.2⟩
      have h1 := hS.1 p hp
      have h2 : p ≠ k := fun h => hkS (h ▸ hp)
      omega
  · rw [max_le_iff]
    refine ⟨OPT_mono wt obs (Nat.le_succ k), ?_⟩
    obtain ⟨S0, hS0, hval⟩ := Finset.exists_mem_eq_sup'
      (⟨∅, empty_mem_okSets obs (pSucc obs k)⟩ : (okSets obs (pSucc obs k)).Nonempty)
      (sumWS wt obs)
    rw [mem_okSets] at hS0
    have hkS0 : k ∉ S0 := fun h => by
      have := hS0.1 k h
      omega
    have hins : insert k S0 ∈ okSets obs (k + 1) := by
      rw [mem_okSets]
      constructor
      · intro p hp
        rcases Finset.mem_insert.mp hp with rfl | hp2
        · omega
        · have := hS0.1 p hp2
          omega
      · intro p hp q hq hpq
        rcases Finset.mem_insert.mp hp with rfl | hp2
        · rcases Finset.mem_insert.mp hq with rfl | hq2
          · exact absurd rfl hpq
          · have hqlt := hS0.1 q hq2
            have hqn : q < obs.length := by omega
            exact Or.inr ((pSucc_char obs hqn).mp hqlt)
        · rcases Finset.mem_insert.mp hq with rfl | hq2
          · have hplt := hS0.1 p hp2
            have hpn : p < obs.length := by omega
            exact Or.inl ((pSucc_char obs hpn).mp hplt)
          · exact hS0.2 p hp2 q hq2 hpq
    have hsum2 : wS wt obs k + OPT wt obs (pSucc obs k)
        = sumWS wt obs (insert k S0) := by
      rw [sumWS_def, Finset.sum_insert hkS0]
      have hOPT : OPT wt obs (pSucc obs k) = ∑ p ∈ S0, wS wt obs p := hval
      rw [hOPT]
    rw [hsum2]
    exact le_OPT wt obs hins

theorem M_zero : M wt obs 0 = 0 := rfl

theorem Mtab_length : ∀ i : ℕ, (Mtab wt obs i).length = i + 1 := by
  intro i
  induction i with
  | zero => rfl
  | succ i ih =>
    show (Mtab wt obs i ++ [Mnext wt obs (Mtab wt obs i) i]).length = i + 2
    rw [List.length_append, ih]
    simp

theorem Mtab_getD_le : ∀ i k : ℕ, k ≤ i →
    (Mtab wt obs i).getD k 0 = M wt obs k := by
  intro i
  induction i with
  | zero =>
    intro k hk
    have hk0 : k = 0 := by omega
    subst hk0
    rfl
  | succ i ih =>
    intro k hk
    rcases Nat.lt_or_ge k (i + 1) with hki | hki
    · have hkt : k < (Mtab wt obs i).length := by
        rw [Mtab_length]
        omega
      have hkt2 : k < (Mtab wt obs i
          ++ [Mnext wt obs (Mtab wt obs i) i]).length := by
        rw [List.length_append]
        omega
      show (Mtab wt obs i ++ [Mnext wt obs (Mtab wt obs i) i]).getD k 0
        = M wt obs k
      rw [List.getD_eq_getElem _ _ hkt2, List.getElem_append_left hkt,
        ← List.getD_eq_getElem (Mtab wt obs i) 0 hkt]
      exact ih k (by omega)
    · have hk2 : k = i + 1 := by omega
      subst hk2
      rfl

theorem M_succ (i : ℕ) :
    M wt obs (i + 1) = max (M wt obs i)
      (wS wt obs i +
        (if pSucc obs i < i + 1 then M wt obs (pSucc obs i) else 0)) := by
  have hlen : (Mtab wt obs i).length = i + 1 := Mtab_length wt obs i
  have hread : (if 0 < pSucc obs i
        then (Mtab wt obs i).getD (pSucc obs i) 0 else 0)
      = (if pSucc obs i < i + 1 then M wt obs (pSucc obs i) else 0) := by
    rcases Nat.eq_zero_or_pos (pSucc obs i) with h0 | hpos
    · rw [h0, if_neg (lt_irrefl 0), if_pos (by omega : (0 : ℕ) < i + 1)]
      exact (M_zero wt obs).symm
    · rw [if_pos hpos]
      by_cases hlt : pSucc obs i < i + 1
      · rw [if_pos hlt]
        exact Mtab_getD_le wt obs i _ (by omega)
      · rw [if_neg hlt]
        exact List.getD_eq_default _ _ (by omega)
  have hcell : M wt obs (i + 1) = Mnext wt obs (Mtab wt obs i) i := by
    show (Mtab wt obs i ++ [Mnext wt obs (Mtab wt obs i) i]).getD (i + 1) 0
      = Mnext wt obs (Mtab wt obs i) i
    have hl2 : i + 1 < (Mtab wt obs i
        ++ [Mnext wt obs (Mtab wt obs i) i]).length := by
      rw [List.length_append, hlen, List.length_singleton]
      omega
    rw [List.getD_eq_getElem _ _ hl2,
      List.getElem_append_right (le_of_eq hlen)]
    simp
  rw [hcell, Mnext, hread]
  show (if (Mtab wt obs i).getD i 0 < wS wt obs i +
      (if pSucc obs i < i + 1 then M wt obs (pSucc obs i) else 0)
    then wS wt obs i +
      (if pSucc obs i < i + 1 then M wt obs (pSucc obs i) else 0)
    else (Mtab wt obs i).getD i 0) = _
  rw [Mtab_getD_le wt obs i i le_rfl, ite_lt_eq_max]

theorem M_eq_OPT (V : ∀ o ∈ obs, o.start < o.stop) :
    ∀ k, k ≤ obs.length → M wt obs k = OPT wt obs k := by
  intro k
  induction k using Nat.strong_induction_on with
  | _ k ih =>
    rcases k with _ | k
    · intro _
      rw [M_zero, OPT_zero]
    · intro hk1
      have hk : k < obs.length := hk1
      have hps := pSucc_le_self obs V hk
      rw [M_succ, if_pos (by omega : pSucc obs k < k + 1),
        ih k (by omega) (le_of_lt hk),
        ih (pSucc obs k) (by omega) (by omega),
        OPT_rec wt obs V hk]

theorem recon_read (i : ℕ) :
    (if 0 < pSucc obs i then M wt obs (pSucc obs i) else 0)
      = M wt obs (pSucc obs i) := by
  rcases Nat.eq_zero_or_pos (pSucc obs i) with h | h
  · rw [h, if_neg (lt_irrefl 0), M_zero]
  · rw [if_pos h]

theorem recon_append : ∀ (fuel i : ℕ) (acc : List ℕ),
    recon wt obs fuel i acc
      = (recon wt obs fuel i []).map (fun l => l ++ acc) := by
  intro fuel
  induction fuel with
  | zero =>
    intro i acc
    rcases i with _ | i
    · simp [recon]
    · simp [recon]
  | succ fuel ih =>
    intro i acc
    rcases i with _ | i
    · simp [recon]
    · show (if M wt obs i ≤ wS wt obs i +
            (if 0 < pSucc obs i then M wt obs (pSucc obs i) else 0)
          then recon wt obs fuel (pSucc obs i) (i :: acc)
          else recon wt obs fuel i acc) = _
      by_cases h : M wt obs i ≤ wS wt obs i +
          (if 0 < pSucc obs i then M wt obs (pSucc obs i) else 0)
      · rw [if_pos h]
        show _ = (if M wt obs i ≤ wS wt obs i +
            (if 0 < pSucc obs i then M wt obs (pSucc obs i) else 0)
          then recon wt obs fuel (pSucc obs i) (i :: [])
          else recon wt obs fuel i []).map (fun l => l ++ acc)
        rw [if_pos h, ih (pSucc obs i) (i :: acc), ih (pSucc obs i) (i :: []),
          Option.map_map]
        apply congrArg (fun f => Option.map f (recon wt obs fuel (pSucc obs i) []))
        funext l
        simp
      · rw [if_neg h]
        show _ = (if M wt obs i ≤ wS wt obs i +
            (if 0 < pSucc obs i then M wt obs (pSucc obs i) else 0)
          then recon wt obs fuel (pSucc obs i) (i :: [])
          else recon wt obs fuel i []).map (fun l => l ++ acc)
        rw [if_neg h]
        exact ih i acc

/-- Correctness of the reconstruction walk: starting the loop at counter
i with enough fuel on a valid input, it terminates and returns a list of
positions below i, strictly increasing (hence duplicate-free), pairwise
compatible, whose total transformed weight is exactly M[i]. -/
theorem recon_spec (V : ∀ o ∈ obs, o.start < o.stop) :
    ∀ (fuel i : ℕ), i ≤ fuel → i ≤ obs.length →
      ∃ l, recon wt obs fuel i [] = some l ∧
        (∀ x ∈ l, x < i) ∧
        l.Pairwise (· < ·) ∧
        l.Pairwise (posCompat obs) ∧
        (l.map (wS wt obs)).sum = M wt obs i := by
  intro fuel
  induction fuel with
  | zero =>
    intro i hif hin
    have : i = 0 := by omega
    subst this
    exact ⟨[], rfl, by simp, by simp, by simp, by simp [M_zero]⟩
  | succ fuel ih =>
    intro i hif hin
    rcases i with _ | i
    · exact ⟨[], rfl, by simp, by simp, by simp, by simp [M_zero]⟩
    · have hi : i < obs.length := hin
      have hps : pSucc obs i ≤ i := pSucc_le_self obs V hi
      by_cases h : M wt obs i ≤ wS wt obs i +
          (if 0 < pSucc obs i then M wt obs (pSucc obs i) else 0)
      · -- inclusion branch
        obtain ⟨l0, hl0, hlt0, hinc0, hcompat0, hsum0⟩ :=
          ih (pSucc obs i) (by omega) (by omega)
        refine ⟨l0 ++ [i], ?_, ?_, ?_, ?_, ?_⟩
        · show (if M wt obs i ≤ wS wt obs i +
              (if 0 < pSucc obs i then M wt obs (pSucc obs i) else 0)
            then recon wt obs fuel (pSucc obs i) (i :: [])
            else recon wt obs fuel i []) = some (l0 ++ [i])
          rw [if_pos h, recon_append wt obs fuel (pSucc obs i) (i :: []), hl0]
          rfl
        · intro x hx
          rcases List.mem_append.mp hx with hx | hx
          · have := hlt0 x hx
            omega
          · simp at hx
            omega
        · rw [List.pairwise_append]
          refine ⟨hinc0, by simp, ?_⟩
          intro a ha b hb
          simp at hb
          subst hb
          have := hlt0 a ha
          omega
        · rw [List.pairwise_append]
          refine ⟨hcompat0, by simp, ?_⟩
          intro a ha b hb
          simp at hb
          rw [hb]
          have halt : a < pSucc obs i := hlt0 a ha
          have han : a < obs.length := by omega
          exact Or.inl ((pSucc_char obs han).mp halt)
        · rw [List.map_append, List.sum_append]
          simp only [List.map_cons, List.map_nil, List.sum_cons, List.sum_nil]
          have h2 := h
          rw [recon_read wt obs i] at h2
          have hM : M wt obs (i + 1)
              = wS wt obs i + M wt obs (pSucc obs i) := by
            rw [M_succ, if_pos (by omega : pSucc obs i < i + 1)]
            exact max_eq_right h2
          rw [hM, hsum0]
          ring
      · -- exclusion branch
        obtain ⟨l0, hl0, hlt0, hinc0, hcompat0, hsum0⟩ :=
          ih i (by omega) (by omega)
        refine ⟨l0, ?_, ?_, hinc0, hcompat0, ?_⟩
        · show (if M wt obs i ≤ wS wt obs i +
              (if 0 < pSucc obs i then M wt obs (pSucc obs i) else 0)
            then recon wt obs fuel (pSucc obs i) (i :: [])
            else recon wt obs fuel i []) = some l0
          rw [if_neg h]
          exact hl0
        · intro x hx
          have := hlt0 x hx
          omega
        · have h2 := h
          rw [recon_read wt obs i] at h2
          have hM : M wt obs (i + 1) = M wt obs i := by
            rw [M_succ, if_pos (by omega : pSucc obs i < i + 1)]
            exact max_eq_left (le_of_not_le h2)
          rw [hM]
          exact hsum0

theorem indices_getD_inj {p q : ℕ} (hp : p < obs.length) (hq : q < obs.length)
    (h : (indices obs).getD p 0 = (indices obs).getD q 0) : p = q := by
  have hp2 : p < (indices obs).length := by rw [indices_length]; exact hp
  have hq2 : q < (indices obs).length := by rw [indices_length]; exact hq
  rw [List.getD_eq_getElem _ _ hp2, List.getD_eq_getElem _ _ hq2] at h
  have h2 : (indices obs).get ⟨p, hp2⟩ = (indices obs).get ⟨q, hq2⟩ := by
    simpa [List.get_eq_getElem] using h
  have h3 := List.nodup_iff_injective_get.mp (indices_nodup obs) h2
  exact congrArg Fin.val h3

theorem indexOf_indices_lt {i : ℕ} (hi : i < obs.length) :
    (indices obs).indexOf i < (indices obs).length :=
  List.indexOf_lt_length.mpr ((mem_indices obs).mpr hi)

theorem getD_indexOf_indices {i : ℕ} (hi : i < obs.length) :
    (indices obs).getD ((indices obs).indexOf i) 0 = i := by
  have hl := indexOf_indices_lt obs hi
  rw [List.getD_eq_getElem _ _ hl]
  have h2 := List.indexOf_get hl
  rw [List.get_eq_getElem] at h2
  exact h2

/-- The brute-force optimum over subsets of the input equals the optimum
over compatible position subsets of the end-sorted order: the sort is a
bijection between the two index spaces that preserves compatibility and
weight. -/
theorem OPT_eq_bruteMax : OPT wt obs obs.length = bruteMax wt obs := by
  apply le_antisymm
  · apply OPT_le
    intro S hS
    rw [mem_okSets] at hS
    have himg : S.image (fun p => (indices obs).getD p 0) ∈ feasSets obs := by
      rw [mem_feasSets]
      constructor
      · intro i hi
        obtain ⟨p, hp, rfl⟩ := Finset.mem_image.mp hi
        exact indices_getD_lt obs (hS.1 p hp)
      · intro i hi j hj hij
        obtain ⟨p, hp, rfl⟩ := Finset.mem_image.mp hi
        obtain ⟨q, hq, rfl⟩ := Finset.mem_image.mp hj
        have hpq : p ≠ q := fun h => hij (by rw [h])
        exact hS.2 p hp q hq hpq
    have hsum : sumIdx wt obs (S.image (fun p => (indices obs).getD p 0))
        = sumWS wt obs S := by
      rw [sumIdx, sumWS_def]
      apply Finset.sum_image
      intro x hx y hy hxy
      exact indices_getD_inj obs (hS.1 x hx) (hS.1 y hy) hxy
    rw [← hsum]
    exact le_bruteMax himg
  · apply bruteMax_le
    intro T hT
    rw [mem_feasSets] at hT
    have himg : T.image (fun i => (indices obs).indexOf i)
        ∈ okSets obs obs.length := by
      rw [mem_okSets]
      constructor
      · intro p hp
        obtain ⟨i, hi, rfl⟩ := Finset.mem_image.mp hp
        have := indexOf_indices_lt obs (hT.1 i hi)
        rwa [indices_length] at this
      · intro p hp q hq hpq
        obtain ⟨i, hi, rfl⟩ := Finset.mem_image.mp hp
        obtain ⟨j, hj, rfl⟩ := Finset.mem_image.mp hq
        have hij : i ≠ j := fun h => hpq (by rw [h])
        have hc := hT.2 i hi j hj hij
        show posCompat obs _ _
        unfold posCompat endS startS ends starts
        rw [getD_indexOf_indices obs (hT.1 i hi),
          getD_indexOf_indices obs (hT.1 j hj)]
        exact hc
    have hinj : ∀ x ∈ T, ∀ y ∈ T,
        (indices obs).indexOf x = (indices obs).indexOf y → x = y := by
      intro x hx y hy hxy
      have h2 := congrArg (fun m => (indices obs).getD m 0) hxy
      simp only at h2
      rw [getD_indexOf_indices obs (hT.1 x hx),
        getD_indexOf_indices obs (hT.1 y hy)] at h2
      exact h2
    have hsum : sumWS wt obs (T.image (fun i => (indices obs).indexOf i))
        = sumIdx wt obs T := by
      rw [sumWS_def, sumIdx, Finset.sum_image hinj]
      apply Finset.sum_congr rfl
      intro i hi
      show wt (obs.getD ((indices obs).getD ((indices obs).indexOf i) 0) default)
        = wt (obs.getD i default)
      rw [getD_indexOf_indices obs (hT.1 i hi)]
    rw [← hsum]
    exact le_OPT wt obs himg

/-- End-to-end description of the DP result on valid inputs: the solver
returns some schedule, given by a strictly increasing, pairwise
compatible list of positions of the end-sorted order whose total
transformed weight is M[n]. -/
theorem dp_spec (V : ∀ o ∈ obs, o.start < o.stop) :
    ∃ l : List ℕ, dynamic_weighted_interval_scheduling wt obs
        = some (l.map (fun k => obs.getD ((indices obs).getD k 0) default)) ∧
      (∀ x ∈ l, x < obs.length) ∧
      l.Pairwise (· < ·) ∧
      l.Pairwise (posCompat obs) ∧
      (l.map (wS wt obs)).sum = M wt obs obs.length := by
  rcases Nat.eq_zero_or_pos obs.length with h0 | hpos
  · refine ⟨[], ?_, by simp, by simp, by simp, ?_⟩
    · unfold dynamic_weighted_interval_scheduling
      rw [if_pos h0]
      rfl
    · rw [h0, M_zero]
      rfl
  · obtain ⟨l, hl, hlt, hinc, hcompat, hsum⟩ :=
      recon_spec wt obs V obs.length obs.length le_rfl le_rfl
    refine ⟨l, ?_, fun x hx => hlt x hx, hinc, hcompat, hsum⟩
    unfold dynamic_weighted_interval_scheduling
    rw [if_neg (by omega), hl]
    rfl

end DP

namespace ACO

variable (observations : List Obs) (slew : ℕ → ℕ → ℚ) (cfg : ACOConfig)

theorem order_perm :
    (order_by_start observations).Perm (List.range observations.length) :=
  List.perm_insertionSort _ _

theorem order_length :
    (order_by_start observations).length = observations.length := by
  simpa using (order_perm observations).length_eq

theorem mem_order {j : ℕ} :
    j ∈ order_by_start observations ↔ j < observations.length := by
  rw [(order_perm observations).mem_iff, List.mem_range]

theorem order_sorted :
    (order_by_start observations).Pairwise
      (fun i j => starts observations i ≤ starts observations j) := by
  haveI : IsTotal ℕ (fun i j => starts observations i ≤ starts observations j) :=
    ⟨fun a b => le_total _ _⟩
  haveI : IsTrans ℕ (fun i j => starts observations i ≤ starts observations j) :=
    ⟨fun a b c hab hbc => le_trans hab hbc⟩
  exact List.sorted_insertionSort _ _

theorem startsMap_sorted :
    ((order_by_start observations).map (starts observations)).Pairwise
      (· ≤ ·) := by
  rw [List.pairwise_map]
  exact order_sorted observations

/-- Every index in the scanned window is start-feasible for task i: the
window begins at the bisect_left insertion point for ends[i] in the
start-sorted order. -/
theorem mem_window_ge {i j : ℕ} (hj : j ∈ window observations cfg i) :
    ends observations i ≤ starts observations j := by
  have hj2 : j ∈ (order_by_start observations).drop (posFirst observations i) :=
    List.mem_of_mem_take hj
  obtain ⟨q, hq⟩ := List.mem_iff_get.mp hj2
  have hql : (q : ℕ) < ((order_by_start observations).drop
      (posFirst observations i)).length := q.isLt
  have hlen : posFirst observations i + (q : ℕ)
      < (order_by_start observations).length := by
    have h3 : ((order_by_start observations).drop
        (posFirst observations i)).length
        = (order_by_start observations).length - posFirst observations i :=
      List.length_drop _ _
    omega
  have hgetj : (order_by_start observations)[posFirst observations i + (q : ℕ)]
      = j := by
    rw [← List.getElem_drop (order_by_start observations)]
    rw [List.get_eq_getElem] at hq
    exact hq
  set ml := (order_by_start observations).map (starts observations) with hml
  have hmll : posFirst observations i + (q : ℕ) < ml.length := by
    rw [hml, List.length_map]
    exact hlen
  have hchar := sorted_countP_char
    (fun s => decide (s < ends observations i))
    (fun a b hab hb => by
      simp only [decide_eq_true_eq] at *
      exact lt_of_le_of_lt hab hb)
    ml (startsMap_sorted observations)
    (posFirst observations i + (q : ℕ)) hmll
  have hcount : ¬(posFirst observations i + (q : ℕ)
      < ml.countP (fun s => decide (s < ends observations i))) := by
    have : ml.countP (fun s => decide (s < ends observations i))
        = posFirst observations i := rfl
    omega
  rw [hchar] at hcount
  have hgetml : ml.getD (posFirst observations i + (q : ℕ)) 0
      = starts observations j := by
    rw [hml, List.getD_eq_getElem _ _ hmll, List.getElem_map, hgetj]
  rw [hgetml] at hcount
  simp only [decide_eq_true_eq] at hcount
  exact le_of_not_lt hcount

theorem mem_window_lt {i j : ℕ} (hj : j ∈ window observations cfg i) :
    j < observations.length := by
  have : j ∈ order_by_start observations :=
    List.mem_of_mem_drop (List.mem_of_mem_take hj)
  exact (mem_order observations).mp this

/-- Every successor index comes from the scanned window. -/
theorem mem_successors_window {i j : ℕ}
    (hj : j ∈ successors observations slew cfg i) :
    j ∈ window observations cfg i := by
  obtain ⟨pr, hpr, hsnd⟩ := List.mem_map.mp hj
  have hpr2 : pr ∈ succSort observations slew cfg i := List.mem_of_mem_take hpr
  have hpr3 : pr ∈ candScored observations slew cfg i :=
    (List.perm_insertionSort _ _).mem_iff.mp hpr2
  obtain ⟨idx, hidx, hpr4⟩ := List.mem_map.mp hpr3
  rw [← hsnd, ← hpr4]
  exact hidx

theorem mem_successors_lt {i j : ℕ}
    (hj : j ∈ successors observations slew cfg i) :
    j < observations.length :=
  mem_window_lt observations cfg (mem_successors_window observations slew cfg hj)

theorem successors_feasible {i j : ℕ}
    (hj : j ∈ successors observations slew cfg i) :
    ends observations i ≤ starts observations j :=
  mem_window_ge observations cfg (mem_successors_window observations slew cfg hj)

theorem successors_length (i : ℕ) :
    (successors observations slew cfg i).length ≤ cfg.top_k := by
  rw [successors, List.length_map]
  have := List.length_take cfg.top_k (succSort observations slew cfg i)
  omega

theorem getD_map_row (f : List (ℕ × ℚ) → List (ℕ × ℚ)) (hf : f [] = [])
    (p : List (List (ℕ × ℚ))) (a : ℕ) :
    (p.map f).getD a [] = f (p.getD a []) := by
  by_cases ha : a < p.length
  · have ha2 : a < (p.map f).length := by rw [List.length_map]; exact ha
    rw [List.getD_eq_getElem _ _ ha2, List.getElem_map,
      List.getD_eq_getElem _ _ ha]
  · rw [List.getD_eq_default _ _ (by rw [List.length_map]; omega),
      List.getD_eq_default _ _ (by omega), hf]

theorem getD_set_row (p : List (List (ℕ × ℚ))) (a b : ℕ)
    (row : List (ℕ × ℚ)) :
    (p.set a row).getD b []
      = if a = b ∧ b < p.length then row else p.getD b [] := by
  by_cases hb : b < p.length
  · have hb2 : b < (p.set a row).length := by rw [List.length_set]; exact hb
    rw [List.getD_eq_getElem _ _ hb2, List.getElem_set,
      List.getD_eq_getElem _ _ hb]
    by_cases hab : a = b
    · rw [if_pos hab, if_pos ⟨hab, hb⟩]
    · rw [if_neg hab, if_neg (by tauto)]
  · rw [List.getD_eq_default _ _ (by rw [List.length_set]; omega),
      List.getD_eq_default _ _ (by omega), if_neg (by tauto)]

theorem pherInv_pher0 :
    pherInv observations slew cfg (pher0 observations slew cfg) := by
  constructor
  · rw [pher0, List.length_map, List.length_range]
  · intro a p hp
    by_cases ha : a < observations.length
    · have ha2 : a < (pher0 observations slew cfg).length := by
        rw [pher0, List.length_map, List.length_range]; exact ha
      rw [List.getD_eq_getElem _ _ ha2] at hp
      unfold pher0 at hp
      simp only [List.getElem_map, List.getElem_range] at hp
      obtain ⟨j, hj, hjp⟩ := List.mem_map.mp hp
      rw [← hjp]
      exact hj
    · rw [List.getD_eq_default] at hp
      · exact absurd hp (List.not_mem_nil p)
      · rw [pher0, List.length_map, List.length_range]; omega

theorem pherInv_evap {p : List (List (ℕ × ℚ))}
    (h : pherInv observations slew cfg p) :
    pherInv observations slew cfg (evapPhase cfg p) := by
  constructor
  · rw [evapPhase, List.length_map]; exact h.1
  · intro a q hq
    rw [evapPhase, getD_map_row (evapRow cfg) rfl] at hq
    rw [evapRow] at hq
    have hq3 := List.mem_of_mem_filter hq
    obtain ⟨q2, hq2m, hq2⟩ := List.mem_map.mp hq3
    have hsucc := h.2 a q2 hq2m
    rw [← hq2]
    exact hsucc

theorem pherInv_depositEdge {p : List (List (ℕ × ℚ))}
    (h : pherInv observations slew cfg p) (dep : ℚ) (ab : ℕ × ℕ) :
    pherInv observations slew cfg
      (depositEdge observations slew cfg dep p ab) := by
  rw [depositEdge]
  by_cases h1 : ((p.getD ab.1 []).lookup ab.2).isSome
  · rw [if_pos h1]
    refine ⟨by rw [List.length_set]; exact h.1, ?_⟩
    intro a q hq
    rw [getD_set_row] at hq
    by_cases h2 : ab.1 = a ∧ a < p.length
    · rw [if_pos h2] at hq
      obtain ⟨q2, hq2m, hq2⟩ := List.mem_map.mp hq
      have hfst : q.1 = q2.1 := by
        rw [← hq2]
        by_cases hc : q2.1 = ab.2
        · rw [if_pos hc]
        · rw [if_neg hc]
      have hsucc := h.2 ab.1 q2 hq2m
      rw [hfst, ← h2.1]
      exact hsucc
    · rw [if_neg h2] at hq
      exact h.2 a q hq
  · rw [if_neg h1]
    by_cases h2 : ab.2 ∈ successors observations slew cfg ab.1
    · rw [if_pos h2]
      refine ⟨by rw [List.length_set]; exact h.1, ?_⟩
      intro a q hq
      rw [getD_set_row] at hq
      by_cases h3 : ab.1 = a ∧ a < p.length
      · rw [if_pos h3] at hq
        rcases List.mem_append.mp hq with hq4 | hq4
        · have hsucc := h.2 ab.1 q hq4
          rw [← h3.1]
          exact hsucc
        · simp only [List.mem_singleton] at hq4
          rw [hq4, ← h3.1]
          exact h2
      · rw [if_neg h3] at hq
        exact h.2 a q hq
    · rw [if_neg h2]
      exact h

theorem pherInv_foldl_deposit (dep : ℚ) :
    ∀ (prs : List (ℕ × ℕ)) {p : List (List (ℕ × ℚ))},
      pherInv observations slew cfg p →
      pherInv observations slew cfg
        (prs.foldl (depositEdge observations slew cfg dep) p) := by
  intro prs
  induction prs with
  | nil => intro p h; exact h
  | cons ab rest ih =>
    intro p h
    rw [List.foldl_cons]
    exact ih (pherInv_depositEdge observations slew cfg h dep ab)

theorem pherInv_deposit {p : List (List (ℕ × ℚ))} (ls : ℚ)
    (lb : Option (List ℕ)) (h : pherInv observations slew cfg p) :
    pherInv observations slew cfg
      (depositPhase observations slew cfg ls lb p) := by
  match lb with
  | none => exact h
  | some tour =>
    show pherInv observations slew cfg
      (if tour.isEmpty then p
       else (tour.zip tour.tail).foldl
         (depositEdge observations slew cfg (ls / (1 + (tour.length : ℚ)))) p)
    by_cases ht : tour.isEmpty
    · rw [if_pos ht]; exact h
    · rw [if_neg ht]
      exact pherInv_foldl_deposit observations slew cfg _ _ h

theorem antStep_pher (rs : RS) (acc : AState × ℚ × Option (List ℕ)) :
    (antStep observations slew cfg rs acc).1.pher = acc.1.pher := rfl

theorem foldl_antStep_pher (rs : RS) :
    ∀ (l : List ℕ) (acc : AState × ℚ × Option (List ℕ)),
      (l.foldl (fun a _ => antStep observations slew cfg rs a) acc).1.pher
        = acc.1.pher := by
  intro l
  induction l with
  | nil => intro acc; rfl
  | cons x rest ih =>
    intro acc
    rw [List.foldl_cons, ih]
    exact antStep_pher observations slew cfg rs acc

theorem antsPhase_pher (rs : RS) (s : AState) :
    (antsPhase observations slew cfg rs s).1.pher = s.pher :=
  foldl_antStep_pher observations slew cfg rs _ _

theorem iterOnce_pher (rs : RS) (s : AState) :
    (iterOnce observations slew cfg rs s).pher
      = depositPhase observations slew cfg
          (antsPhase observations slew cfg rs s).2.1
          (antsPhase observations slew cfg rs s).2.2
          (evapPhase cfg (antsPhase observations slew cfg rs s).1.pher) := rfl

theorem le_ite_lt (a s : ℚ) : a ≤ if a < s then s else a := by
  by_cases h : a < s
  · rw [if_pos h]; exact le_of_lt h
  · rw [if_neg h]

theorem antStep_best_mono (rs : RS) (acc : AState × ℚ × Option (List ℕ)) :
    acc.1.bestScore ≤ (antStep observations slew cfg rs acc).1.bestScore :=
  le_ite_lt acc.1.bestScore _

theorem foldl_antStep_best_mono (rs : RS) :
    ∀ (l : List ℕ) (acc : AState × ℚ × Option (List ℕ)),
      acc.1.bestScore
        ≤ (l.foldl (fun a _ => antStep observations slew cfg rs a) acc).1.bestScore := by
  intro l
  induction l with
  | nil => intro acc; exact le_refl _
  | cons x rest ih =>
    intro acc
    rw [List.foldl_cons]
    exact le_trans (antStep_best_mono observations slew cfg rs acc) (ih _)

theorem iterOnce_best_mono (rs : RS) (s : AState) :
    s.bestScore ≤ (iterOnce observations slew cfg rs s).bestScore :=
  foldl_antStep_best_mono observations slew cfg rs (List.range cfg.num_ants)
    (s, 0, none)

theorem runState_succ (rs : RS) (t : ℕ) :
    runState observations slew cfg rs (t + 1)
      = iterOnce observations slew cfg rs
          (runState observations slew cfg rs t) := by
  rw [runState, runState, Function.iterate_succ_apply']

theorem weightAt_zero (hw : ∀ o ∈ observations, o.weight = 0) (i : ℕ) :
    weightAt observations i = 0 := by
  show (observations.getD i default).weight = 0
  by_cases hi : i < observations.length
  · rw [List.getD_eq_getElem _ _ hi]
    exact hw _ (List.getElem_mem hi)
  · rw [List.getD_eq_default _ _ (by omega)]
    rfl

theorem scoreOf_zero (hw : ∀ o ∈ observations, o.weight = 0)
    (tour : List ℕ) : scoreOf observations tour = 0 := by
  apply List.sum_eq_zero
  intro x hx
  obtain ⟨i, _, hxi⟩ := List.mem_map.mp hx
  rw [← hxi]
  exact weightAt_zero observations hw i

theorem antStep_zero (hw : ∀ o ∈ observations, o.weight = 0) (rs : RS)
    (acc : AState × ℚ × Option (List ℕ)) (hbs : acc.1.bestScore = 0)
    (hbsc : acc.1.bestSchedule = []) :
    (antStep observations slew cfg rs acc).1.bestScore = 0 ∧
    (antStep observations slew cfg rs acc).1.bestSchedule = [] := by
  have hsc : scoreOf observations
      (build_ant_tour observations slew cfg acc.1.pher rs acc.1.k).1 = 0 :=
    scoreOf_zero observations hw _
  constructor
  · show (if acc.1.bestScore < scoreOf observations
        (build_ant_tour observations slew cfg acc.1.pher rs acc.1.k).1
      then scoreOf observations
        (build_ant_tour observations slew cfg acc.1.pher rs acc.1.k).1
      else acc.1.bestScore) = 0
    rw [hsc, hbs, if_neg (lt_irrefl 0)]
  · show (if acc.1.bestScore < scoreOf observations
        (build_ant_tour observations slew cfg acc.1.pher rs acc.1.k).1
      then (build_ant_tour observations slew cfg acc.1.pher rs acc.1.k).1
      else acc.1.bestSchedule) = []
    rw [hsc, hbs, if_neg (lt_irrefl 0)]
    exact hbsc

theorem foldl_antStep_zero (hw : ∀ o ∈ observations, o.weight = 0) (rs : RS) :
    ∀ (l : List ℕ) (acc : AState × ℚ × Option (List ℕ)),
      acc.1.bestScore = 0 → acc.1.bestSchedule = [] →
      (l.foldl (fun a _ => antStep observations slew cfg rs a) acc).1.bestScore = 0 ∧
      (l.foldl (fun a _ => antStep observations slew cfg rs a) acc).1.bestSchedule = [] := by
  intro l
  induction l with
  | nil => intro acc h1 h2; exact ⟨h1, h2⟩
  | cons x rest ih =>
    intro acc h1 h2
    rw [List.foldl_cons]
    have h3 := antStep_zero observations slew cfg hw rs acc h1 h2
    exact ih _ h3.1 h3.2

theorem runState_zero (hw : ∀ o ∈ observations, o.weight = 0) (rs : RS) :
    ∀ t : ℕ, (runState observations slew cfg rs t).bestScore = 0 ∧
      (runState observations slew cfg rs t).bestSchedule = [] := by
  intro t
  induction t with
  | zero => exact ⟨rfl, rfl⟩
  | succ t ih =>
    rw [runState_succ]
    exact foldl_antStep_zero observations slew cfg hw rs
      (List.range cfg.num_ants) _ ih.1 ih.2

theorem tourLoop_extends (pher : List (List (ℕ × ℚ))) (rs : RS) :
    ∀ (fuel : ℕ) (sel : List ℕ) (used : List Bool) (k : ℕ),
      ∃ rest, (tourLoop observations slew cfg pher rs fuel sel used k).1
        = sel ++ rest := by
  intro fuel
  induction fuel with
  | zero =>
    intro sel used k
    exact ⟨[], (List.append_nil sel).symm⟩
  | succ fuel ih =>
    intro sel used k
    rcases hc : chooseNext observations slew cfg pher used (sel.getLastD 0) rs k
      with ⟨oj, k2⟩
    rcases oj with _ | j
    · refine ⟨[], ?_⟩
      rw [tourLoop, hc, List.append_nil]
    · obtain ⟨rest, hr⟩ := ih (sel ++ [j]) (used.set j true) k2
      refine ⟨j :: rest, ?_⟩
      rw [tourLoop, hc, hr, List.append_assoc]
      rfl

theorem build_ant_tour_ne (pher : List (List (ℕ × ℚ))) (rs : RS) (k : ℕ) :
    (build_ant_tour observations slew cfg pher rs k).1 ≠ [] := by
  obtain ⟨rest, hr⟩ := tourLoop_extends observations slew cfg pher rs
    observations.length [rs.ints k % observations.length]
    ((List.replicate observations.length false).set
      (rs.ints k % observations.length) true) (k + 1)
  show (tourLoop observations slew cfg pher rs observations.length
    [rs.ints k % observations.length]
    ((List.replicate observations.length false).set
      (rs.ints k % observations.length) true) (k + 1)).1 ≠ []
  rw [hr]
  simp

theorem pickScan_mem : ∀ (l : List (ℚ × ℕ)) (r acc : ℚ) (d : ℕ),
    pickScan l r acc d = d ∨ pickScan l r acc d ∈ l.map Prod.snd := by
  intro l
  induction l with
  | nil => intro r acc d; exact Or.inl rfl
  | cons p rest ih =>
    intro r acc d
    rcases p with ⟨s, j⟩
    show (if r ≤ acc + s then j else pickScan rest r (acc + s) d) = d ∨
      (if r ≤ acc + s then j else pickScan rest r (acc + s) d)
        ∈ List.map Prod.snd ((s, j) :: rest)
    by_cases h : r ≤ acc + s
    · rw [if_pos h]
      refine Or.inr ?_
      simp
    · rw [if_neg h]
      rcases ih r (acc + s) d with h2 | h2
      · exact Or.inl h2
      · refine Or.inr ?_
        simp only [List.map_cons]
        exact List.mem_cons_of_mem _ h2

theorem headD_mem {l : List (ℚ × ℕ)} (h : l ≠ []) (d : ℚ × ℕ) :
    l.headD d ∈ l := by
  cases l with
  | nil => exact absurd rfl h
  | cons a t => exact List.mem_cons_self a t

theorem getLastD_mem {l : List (ℚ × ℕ)} (h : l ≠ []) (d : ℚ × ℕ) :
    l.getLastD d ∈ l := by
  rw [List.getLastD_eq_getLast?]
  have h2 : l.getLast? = some (l.getLast h) := List.getLast?_eq_getLast l h
  rw [h2]
  exact List.getLast_mem h

theorem insertionSort_ne_nil {l : List (ℚ × ℕ)} (h : l ≠ [])
    (r : (ℚ × ℕ) → (ℚ × ℕ) → Prop) [DecidableRel r] :
    List.insertionSort r l ≠ [] := by
  intro h2
  apply h
  have h3 := List.length_insertionSort r l
  rw [h2] at h3
  exact List.length_eq_zero.mp h3.symm

/-- The head of the descending lexicographic sort is a member of the
list and carries a maximal score. -/
theorem sortDesc_head_max {cand : List (ℚ × ℕ)} (hne : cand ≠ []) :
    ((List.insertionSort (fun a b => b.1 < a.1 ∨ (b.1 = a.1 ∧ b.2 ≤ a.2))
        cand).headD (0, 0)) ∈ cand ∧
    ∀ p ∈ cand, p.1 ≤ ((List.insertionSort
        (fun a b => b.1 < a.1 ∨ (b.1 = a.1 ∧ b.2 ≤ a.2))
        cand).headD (0, 0)).1 := by
  haveI : IsTotal (ℚ × ℕ) (fun a b => b.1 < a.1 ∨ (b.1 = a.1 ∧ b.2 ≤ a.2)) := by
    constructor
    intro a b
    rcases lt_trichotomy a.1 b.1 with h | h | h
    · exact Or.inr (Or.inl h)
    · rcases le_total b.2 a.2 with h2 | h2
      · exact Or.inl (Or.inr ⟨h.symm, h2⟩)
      · exact Or.inr (Or.inr ⟨h, h2⟩)
    · exact Or.inl (Or.inl h)
  haveI : IsTrans (ℚ × ℕ) (fun a b => b.1 < a.1 ∨ (b.1 = a.1 ∧ b.2 ≤ a.2)) := by
    constructor
    intro a b c hab hbc
    rcases hab with h1 | h1
    · rcases hbc with h2 | h2
      · exact Or.inl (lt_trans h2 h1)
      · exact Or.inl (lt_of_le_of_lt (le_of_eq h2.1) h1)
    · rcases hbc with h2 | h2
      · exact Or.inl (lt_of_lt_of_le h2 (le_of_eq h1.1))
      · exact Or.inr ⟨h2.1.trans h1.1, h2.2.trans h1.2⟩
  have hsorted := List.sorted_insertionSort
    (fun a b => b.1 < a.1 ∨ (b.1 = a.1 ∧ b.2 ≤ a.2)) cand
  have hperm := List.perm_insertionSort
    (fun a b => b.1 < a.1 ∨ (b.1 = a.1 ∧ b.2 ≤ a.2)) cand
  have hsne : List.insertionSort
      (fun a b => b.1 < a.1 ∨ (b.1 = a.1 ∧ b.2 ≤ a.2)) cand ≠ [] :=
    insertionSort_ne_nil hne _
  rcases hs : List.insertionSort
      (fun a b => b.1 < a.1 ∨ (b.1 = a.1 ∧ b.2 ≤ a.2)) cand with _ | ⟨hd, tl⟩
  · exact absurd hs hsne
  · rw [hs] at hsorted hperm
    constructor
    · rw [hs]
      exact hperm.mem_iff.mp (List.mem_cons_self hd tl)
    · intro p hp
      rw [hs]
      have hp2 : p ∈ hd :: tl := hperm.mem_iff.mpr hp
      rcases List.mem_cons.mp hp2 with rfl | hp3
      · exact le_refl _
      · have hrel := (List.pairwise_cons.mp hsorted).1 p hp3
        rcases hrel with h | h
        · exact le_of_lt h
        · exact le_of_eq h.1

/-- Whatever branch chooseNext takes, a chosen successor is the second
component of some candidate pair. -/
theorem chooseNext_some_mem {pher : List (List (ℕ × ℚ))} {used : List Bool}
    {last : ℕ} {rs : RS} {k : ℕ} {j k2 : ℕ}
    (h : chooseNext observations slew cfg pher used last rs k = (some j, k2)) :
    j ∈ (candList observations slew cfg pher used last).map Prod.snd := by
  rw [chooseNext] at h
  by_cases he : (candList observations slew cfg pher used last).isEmpty
  · rw [if_pos he] at h
    exact absurd (congrArg Prod.fst h) (by simp)
  · rw [if_neg he] at h
    have hne : candList observations slew cfg pher used last ≠ [] := by
      intro hnil
      rw [hnil] at he
      exact he rfl
    by_cases ht : ((candList observations slew cfg pher used last).map Prod.fst).sum ≤ 0
    · rw [if_pos ht] at h
      have hj := congrArg Prod.fst h
      simp only [Option.some.injEq] at hj
      have hmem := headD_mem (insertionSort_ne_nil hne
        (fun a b => b.1 < a.1 ∨ (b.1 = a.1 ∧ b.2 ≤ a.2)))
        ((0 : ℚ), (0 : ℕ))
      have hmem2 := (List.perm_insertionSort _ _).mem_iff.mp hmem
      rw [← hj]
      exact List.mem_map.mpr ⟨_, hmem2, rfl⟩
    · rw [if_neg ht] at h
      have hj := congrArg Prod.fst h
      simp only [Option.some.injEq] at hj
      rcases pickScan_mem (candList observations slew cfg pher used last)
        (rs.reals k * ((candList observations slew cfg pher used last).map Prod.fst).sum)
        0 ((candList observations slew cfg pher used last).getLastD (0, 0)).2
        with h2 | h2
      · rw [← hj, h2]
        exact List.mem_map.mpr ⟨_, getLastD_mem hne (0, 0), rfl⟩
      · rw [← hj]
        exact h2

/-- What membership in the candidate list tells about the candidate: it
is an unused, start-feasible successor of the last chosen task. -/
theorem candList_mem {pher : List (List (ℕ × ℚ))} {used : List Bool}
    {last : ℕ} {sc : ℚ} {j : ℕ}
    (h : (sc, j) ∈ candList observations slew cfg pher used last) :
    j ∈ successors observations slew cfg last ∧
    used.getD j false = false ∧
    ends observations last ≤ starts observations j := by
  rw [candList] at h
  obtain ⟨a, ha, hfa⟩ := List.mem_filterMap.mp h
  by_cases h1 : used.getD a false = true
  · rw [if_pos h1] at hfa
    exact absurd hfa (by simp)
  · rw [if_neg h1] at hfa
    by_cases h2 : ends observations last ≤ starts observations a
    · rw [if_pos h2] at hfa
      by_cases h3 : ((((pher.getD last []).lookup a).getD 0) ^ cfg.alpha ≤ 0 ∧
          (((heuristicRow observations slew cfg last).lookup a).getD 0) ^ cfg.beta ≤ 0)
      · rw [if_pos h3] at hfa
        exact absurd hfa (by simp)
      · rw [if_neg h3] at hfa
        have hones := Option.some.inj hfa
        have haj : a = j := congrArg Prod.snd hones
        subst haj
        refine ⟨ha, ?_, h2⟩
        rcases Bool.eq_false_or_eq_true (used.getD a false) with hb | hb
        · exact absurd hb h1
        · exact hb
    · rw [if_neg h2] at hfa
      exact absurd hfa (by simp)

theorem starts_lt_ends (V : ∀ o ∈ observations, o.start < o.stop) {i : ℕ}
    (hi : i < observations.length) :
    starts observations i < ends observations i := by
  show (observations.getD i default).start < (observations.getD i default).stop
  rw [List.getD_eq_getElem _ _ hi]
  exact V _ (List.getElem_mem hi)

theorem chain_head_rel (V : ∀ o ∈ observations, o.start < o.stop) :
    ∀ (t : List ℕ) (a : ℕ),
      (a :: t).Chain' (fun x y => ends observations x ≤ starts observations y) →
      (∀ x ∈ a :: t, x < observations.length) →
      ∀ b ∈ t, ends observations a ≤ starts observations b := by
  intro t
  induction t with
  | nil => intro a _ _ b hb; exact absurd hb (List.not_mem_nil b)
  | cons c t2 ih =>
    intro a hc hx b hb
    have hac : ends observations a ≤ starts observations c :=
      (List.chain'_cons.mp hc).1
    rcases List.mem_cons.mp hb with rfl | hb2
    · exact hac
    · have hcn : c < observations.length :=
        hx c (List.mem_cons_of_mem a (List.mem_cons_self c t2))
      have hcv : starts observations c < ends observations c :=
        starts_lt_ends observations V hcn
      have hcb := ih c (List.chain'_cons.mp hc).2
        (fun x hx2 => hx x (List.mem_cons_of_mem a hx2)) b hb2
      linarith

theorem chain_rel_pairwise (V : ∀ o ∈ observations, o.start < o.stop) :
    ∀ l : List ℕ,
      l.Chain' (fun x y => ends observations x ≤ starts observations y) →
      (∀ x ∈ l, x < observations.length) →
      l.Pairwise (fun x y => ends observations x ≤ starts observations y) := by
  intro l
  induction l with
  | nil => intro _ _; exact List.Pairwise.nil
  | cons a t ih =>
    intro hc hx
    rw [List.pairwise_cons]
    refine ⟨chain_head_rel observations V t a hc hx,
      ih hc.tail (fun x hx2 => hx x (List.mem_cons_of_mem a hx2))⟩

/-- The tour-construction invariant: every extension appends an unused,
start-feasible successor, so the selected list stays consecutively
feasible, in-range and duplicate-free. -/
theorem tourLoop_good (pher : List (List (ℕ × ℚ))) (rs : RS) :
    ∀ (fuel : ℕ) (sel : List ℕ) (used : List Bool) (k : ℕ),
      sel.Chain' (fun x y => ends observations x ≤ starts observations y) →
      (∀ x ∈ sel, x < observations.length) →
      sel.Nodup →
      used.length = observations.length →
      (∀ m : ℕ, used.getD m false = true ↔ m ∈ sel) →
      ((tourLoop observations slew cfg pher rs fuel sel used k).1.Chain'
          (fun x y => ends observations x ≤ starts observations y) ∧
        (∀ x ∈ (tourLoop observations slew cfg pher rs fuel sel used k).1,
          x < observations.length) ∧
        (tourLoop observations slew cfg pher rs fuel sel used k).1.Nodup) := by
  intro fuel
  induction fuel with
  | zero =>
    intro sel used k h1 h2 h3 _ _
    exact ⟨h1, h2, h3⟩
  | succ fuel ih =>
    intro sel used k h1 h2 h3 h4 h5
    rcases hc : chooseNext observations slew cfg pher used (sel.getLastD 0) rs k
      with ⟨oj, k2⟩
    rcases oj with _ | j
    · rw [tourLoop, hc]
      exact ⟨h1, h2, h3⟩
    · rw [tourLoop, hc]
      obtain ⟨pr, hpr, hprj⟩ := List.mem_map.mp
        (chooseNext_some_mem observations slew cfg hc)
      rcases pr with ⟨sc, j2⟩
      have hj2 : j2 = j := hprj
      subst hj2
      obtain ⟨hjs, hju, hjf⟩ := candList_mem observations slew cfg hpr
      have hjn : j2 < observations.length :=
        mem_successors_lt observations slew cfg hjs
      have hjsel : j2 ∉ sel := by
        intro hmem
        have h6 := (h5 j2).mpr hmem
        rw [hju] at h6
        exact Bool.false_ne_true h6
      apply ih
      · rw [List.chain'_append]
        refine ⟨h1, List.chain'_singleton j2, ?_⟩
        intro x hx y hy
        have hy2 : j2 = y := by simpa using hy
        have hxl : sel.getLastD 0 = x := by
          rw [List.getLastD_eq_getLast?, Option.mem_def.mp hx]
          rfl
        rw [← hxl, ← hy2]
        exact hjf
      · intro x hx
        rcases List.mem_append.mp hx with hx2 | hx2
        · exact h2 x hx2
        · have hx3 := List.mem_singleton.mp hx2
          subst hx3
          exact hjn
      · rw [List.nodup_append]
        refine ⟨h3, List.nodup_singleton j2, ?_⟩
        rw [List.disjoint_singleton]
        exact hjsel
      · rw [List.length_set]
        exact h4
      · intro m
        by_cases hm : m < used.length
        · have hm2 : m < (used.set j2 true).length := by
            rw [List.length_set]; exact hm
          rw [List.getD_eq_getElem _ _ hm2, List.getElem_set]
          by_cases hjm : j2 = m
          · subst hjm
            rw [if_pos rfl]
            constructor
            · intro _
              exact List.mem_append.mpr (Or.inr (List.mem_singleton.mpr rfl))
            · intro _
              rfl
          · rw [if_neg hjm, ← List.getD_eq_getElem used false hm, h5 m]
            constructor
            · intro hmem
              exact List.mem_append.mpr (Or.inl hmem)
            · intro hmem
              rcases List.mem_append.mp hmem with h6 | h6
              · exact h6
              · exact absurd (List.mem_singleton.mp h6)
                  (fun h7 => hjm h7.symm)
        · rw [List.getD_eq_default _ _ (by rw [List.length_set]; omega)]
          constructor
          · intro h6
            exact absurd h6 Bool.false_ne_true
          · intro hmem
            exfalso
            rcases List.mem_append.mp hmem with h6 | h6
            · have := h2 m h6
              omega
            · have h7 := List.mem_singleton.mp h6
              subst h7
              omega

/-- Every ant tour is consecutively feasible, in-range and
duplicate-free. -/
theorem build_ant_tour_good (hn : 0 < observations.length)
    (pher : List (List (ℕ × ℚ))) (rs : RS)
    (k : ℕ) :
    ((build_ant_tour observations slew cfg pher rs k).1.Chain'
        (fun x y => ends observations x ≤ starts observations y) ∧
      (∀ x ∈ (build_ant_tour observations slew cfg pher rs k).1,
        x < observations.length) ∧
      (build_ant_tour observations slew cfg pher rs k).1.Nodup) := by
  have hs0 : rs.ints k % observations.length < observations.length :=
    Nat.mod_lt _ hn
  refine tourLoop_good observations slew cfg pher rs observations.length
    [rs.ints k % observations.length]
    ((List.replicate observations.length false).set
      (rs.ints k % observations.length) true)
    (k + 1) (List.chain'_singleton _) ?_ (List.nodup_singleton _) ?_ ?_
  · intro x hx
    have hx2 := List.mem_singleton.mp hx
    subst hx2
    exact hs0
  · rw [List.length_set, List.length_replicate]
  · intro m
    by_cases hm : m < observations.length
    · have hm2 : m < ((List.replicate observations.length false).set
          (rs.ints k % observations.length) true).length := by
        rw [List.length_set, List.length_replicate]
        exact hm
      rw [List.getD_eq_getElem _ _ hm2, List.getElem_set]
      by_cases hsm : rs.ints k % observations.length = m
      · rw [if_pos hsm]
        constructor
        · intro _
          exact List.mem_singleton.mpr hsm.symm
        · intro _
          rfl
      · rw [if_neg hsm, List.getElem_replicate]
        constructor
        · intro h6
          exact absurd h6 Bool.false_ne_true
        · intro hmem
          exact absurd (List.mem_singleton.mp hmem)
            (fun h7 => hsm h7.symm)
    · rw [List.getD_eq_default _ _
        (by rw [List.length_set, List.length_replicate]; omega)]
      constructor
      · intro h6
        exact absurd h6 Bool.false_ne_true
      · intro hmem
        have h7 := List.mem_singleton.mp hmem
        subst h7
        omega

/-- The tracked global-best tour keeps the tour invariant: it is either
the initial empty list or some constructed tour. -/
theorem antStep_sched_good (hn : 0 < observations.length) (rs : RS)
    (acc : AState × ℚ × Option (List ℕ))
    (h : acc.1.bestSchedule.Chain'
        (fun x y => ends observations x ≤ starts observations y) ∧
      (∀ x ∈ acc.1.bestSchedule, x < observations.length) ∧
      acc.1.bestSchedule.Nodup) :
    ((antStep observations slew cfg rs acc).1.bestSchedule.Chain'
        (fun x y => ends observations x ≤ starts observations y) ∧
      (∀ x ∈ (antStep observations slew cfg rs acc).1.bestSchedule,
        x < observations.length) ∧
      (antStep observations slew cfg rs acc).1.bestSchedule.Nodup) := by
  have hg := build_ant_tour_good observations slew cfg hn acc.1.pher rs acc.1.k
  show ((if acc.1.bestScore < scoreOf observations
        (build_ant_tour observations slew cfg acc.1.pher rs acc.1.k).1
      then (build_ant_tour observations slew cfg acc.1.pher rs acc.1.k).1
      else acc.1.bestSchedule).Chain'
        (fun x y => ends observations x ≤ starts observations y) ∧
    (∀ x ∈ (if acc.1.bestScore < scoreOf observations
        (build_ant_tour observations slew cfg acc.1.pher rs acc.1.k).1
      then (build_ant_tour observations slew cfg acc.1.pher rs acc.1.k).1
      else acc.1.bestSchedule), x < observations.length) ∧
    (if acc.1.bestScore < scoreOf observations
        (build_ant_tour observations slew cfg acc.1.pher rs acc.1.k).1
      then (build_ant_tour observations slew cfg acc.1.pher rs acc.1.k).1
      else acc.1.bestSchedule).Nodup)
  by_cases hlt : acc.1.bestScore < scoreOf observations
      (build_ant_tour observations slew cfg acc.1.pher rs acc.1.k).1
  · rw [if_pos hlt]
    exact hg
  · rw [if_neg hlt]
    exact h

theorem foldl_antStep_sched_good (hn : 0 < observations.length) (rs : RS) :
    ∀ (l : List ℕ) (acc : AState × ℚ × Option (List ℕ)),
      (acc.1.bestSchedule.Chain'
          (fun x y => ends observations x ≤ starts observations y) ∧
        (∀ x ∈ acc.1.bestSchedule, x < observations.length) ∧
        acc.1.bestSchedule.Nodup) →
      ((l.foldl (fun a _ => antStep observations slew cfg rs a)
          acc).1.bestSchedule.Chain'
          (fun x y => ends observations x ≤ starts observations y) ∧
        (∀ x ∈ (l.foldl (fun a _ => antStep observations slew cfg rs a)
          acc).1.bestSchedule, x < observations.length) ∧
        (l.foldl (fun a _ => antStep observations slew cfg rs a)
          acc).1.bestSchedule.Nodup) := by
  intro l
  induction l with
  | nil => intro acc h; exact h
  | cons x rest ih =>
    intro acc h
    rw [List.foldl_cons]
    exact ih _ (antStep_sched_good observations slew cfg hn rs acc h)

theorem runState_sched_good (hn : 0 < observations.length) (rs : RS) :
    ∀ t : ℕ,
      ((runState observations slew cfg rs t).bestSchedule.Chain'
          (fun x y => ends observations x ≤ starts observations y) ∧
        (∀ x ∈ (runState observations slew cfg rs t).bestSchedule,
          x < observations.length) ∧
        (runState observations slew cfg rs t).bestSchedule.Nodup) := by
  intro t
  induction t with
  | zero =>
    exact ⟨List.chain'_nil,
      fun x hx => absurd hx (List.not_mem_nil x), List.nodup_nil⟩
  | succ t ih =>
    rw [runState_succ]
    exact foldl_antStep_sched_good observations slew cfg hn rs
      (List.range cfg.num_ants) _ ih

theorem runState_pherInv (rs : RS) :
    ∀ t : ℕ, pherInv observations slew cfg
      (runState observations slew cfg rs t).pher := by
  intro t
  induction t with
  | zero => exact pherInv_pher0 observations slew cfg
  | succ t ih =>
    rw [runState, Function.iterate_succ_apply']
    rw [show ((iterOnce observations slew cfg rs)
        ((iterOnce observations slew cfg rs)^[t]
          (state0 observations slew cfg)))
      = iterOnce observations slew cfg rs
          (runState observations slew cfg rs t) from rfl]
    rw [iterOnce_pher]
    apply pherInv_deposit
    apply pherInv_evap
    rw [antsPhase_pher]
    exact ih

end ACO

-- ===================================================================
-- Claims
-- ===================================================================

/-- Claim C1: for every task set of size at most 20 in which every task
has end > start, the schedule returned by
dynamic_weighted_interval_scheduling has total transformed weight equal
to the maximum total transformed weight achievable by any pairwise
non-overlapping subset of the input.  The fourth-root duration transform
of the source is real-valued, so the statement quantifies over an
arbitrary per-task transformed weight wt, which covers the transform
weight * max(duration, 1) ** 0.25. -/
theorem C1_dp_optimal (wt : Obs → ℚ) (obs : List Obs)
    (V : ∀ o ∈ obs, o.start < o.stop) (_hsize : obs.length ≤ 20) :
    ∃ sched : List Obs,
      DP.dynamic_weighted_interval_scheduling wt obs = some sched ∧
      totalWt wt sched = bruteMax wt obs := by
  obtain ⟨l, hl, hlt, hinc, hcompat, hsum⟩ := DP.dp_spec wt obs V
  refine ⟨_, hl, ?_⟩
  rw [totalWt, List.map_map]
  have hmaps : (l.map
      (wt ∘ fun k => obs.getD ((DP.indices obs).getD k 0) default)).sum
      = (l.map (DP.wS wt obs)).sum := rfl
  rw [hmaps, hsum, DP.M_eq_OPT wt obs V obs.length le_rfl,
    DP.OPT_eq_bruteMax]

/-- Claim C1 witness: on Scenario A with raw weights as the transform,
the hypotheses hold and the theorem applies. -/
theorem C1_witness :
    (∀ o ∈ obsA, o.start < o.stop) ∧ obsA.length ≤ 20 ∧
    ∃ sched : List Obs,
      DP.dynamic_weighted_interval_scheduling (fun o => o.weight) obsA
        = some sched ∧
      totalWt (fun o => o.weight) sched
        = bruteMax (fun o => o.weight) obsA :=
  ⟨by decide, by decide, C1_dp_optimal (fun o => o.weight) obsA (by decide) (by decide)⟩

/-- Claim C7: on every input whose tasks all have end > start, the
schedule returned by dynamic_weighted_interval_scheduling is pairwise
non-overlapping: of any two chosen tasks, one ends no later than the
other starts. -/
theorem C7_dp_feasible (wt : Obs → ℚ) (obs : List Obs)
    (V : ∀ o ∈ obs, o.start < o.stop) :
    ∃ sched : List Obs,
      DP.dynamic_weighted_interval_scheduling wt obs = some sched ∧
      sched.Pairwise compatObs := by
  obtain ⟨l, hl, hlt, hinc, hcompat, hsum⟩ := DP.dp_spec wt obs V
  refine ⟨_, hl, ?_⟩
  refine List.Pairwise.map _ ?_ hcompat
  intro a b hab
  exact hab

/-- Claim C7 witness: the theorem applied to Scenario A. -/
theorem C7_witness :
    (∀ o ∈ obsA, o.start < o.stop) ∧
    ∃ sched : List Obs,
      DP.dynamic_weighted_interval_scheduling (fun o => o.weight) obsA
        = some sched ∧
      sched.Pairwise compatObs :=
  ⟨by decide, C7_dp_feasible (fun o => o.weight) obsA (by decide)⟩

/-- Claim C2: on every input whose tasks all have end > start, every
tour constructed by an ant is duplicate-free and pairwise
non-overlapping — whatever the pheromone state and the random draws —
and so is the final schedule returned by ant_colony_schedule. -/
theorem C2_tours_feasible (observations : List Obs) (slew : ℕ → ℕ → ℚ)
    (cfg : ACOConfig) (rs : RS)
    (V : ∀ o ∈ observations, o.start < o.stop) :
    (∀ (pher : List (List (ℕ × ℚ))) (k : ℕ), 0 < observations.length →
      ((ACO.build_ant_tour observations slew cfg pher rs k).1.Nodup ∧
        (ACO.build_ant_tour observations slew cfg pher rs k).1.Pairwise
          (compatAt observations))) ∧
    (ACO.ant_colony_schedule observations slew cfg rs).Pairwise compatObs := by
  constructor
  · intro pher k hn
    obtain ⟨hchain, hlt, hnd⟩ :=
      ACO.build_ant_tour_good observations slew cfg hn pher rs k
    refine ⟨hnd, ?_⟩
    have hp := ACO.chain_rel_pairwise observations V _ hchain hlt
    exact hp.imp (fun hab => Or.inl hab)
  · show (if observations.length = 0 then ([] : List Obs) else
      if (ACO.runState observations slew cfg rs cfg.iterations).bestSchedule.isEmpty
      then []
      else List.insertionSort (fun a b => a.start ≤ b.start)
        ((ACO.runState observations slew cfg rs
          cfg.iterations).bestSchedule.map
          (fun i => observations.getD i default))).Pairwise compatObs
    by_cases h0 : observations.length = 0
    · rw [if_pos h0]
      exact List.Pairwise.nil
    · rw [if_neg h0]
      have hn : 0 < observations.length := Nat.pos_of_ne_zero h0
      obtain ⟨hchain, hlt, hnd⟩ :=
        ACO.runState_sched_good observations slew cfg hn rs cfg.iterations
      by_cases he : (ACO.runState observations slew cfg rs
          cfg.iterations).bestSchedule.isEmpty
      · rw [if_pos he]
        exact List.Pairwise.nil
      · rw [if_neg he]
        have hp := ACO.chain_rel_pairwise observations V _ hchain hlt
        have hmap : ((ACO.runState observations slew cfg rs
            cfg.iterations).bestSchedule.map
            (fun i => observations.getD i default)).Pairwise compatObs := by
          refine List.Pairwise.map _ ?_ hp
          intro a b hab
          exact Or.inl hab
        exact ((List.perm_insertionSort _ _).pairwise_iff
          (fun h => compatObs_symm h)).mpr hmap

/-- Claim C2 witness: the theorem applied to two valid tasks. -/
theorem C2_witness :
    (∀ o ∈ obsP, o.start < o.stop) ∧
    ((∀ (pher : List (List (ℕ × ℚ))) (k : ℕ), 0 < obsP.length →
      ((ACO.build_ant_tour obsP slew0 cfgP pher rs0 k).1.Nodup ∧
        (ACO.build_ant_tour obsP slew0 cfgP pher rs0 k).1.Pairwise
          (compatAt obsP))) ∧
    (ACO.ant_colony_schedule obsP slew0 cfgP rs0).Pairwise compatObs) :=
  ⟨by decide, C2_tours_feasible obsP slew0 cfgP rs0 (by decide)⟩

/-- Claim C3 counterexample: the schedulers do not fail fast on an
invalid interval.  On obsBad, whose first task has end = start, the DP
solver simply returns a schedule (the valid second task), raising no
InvalidInterval condition. -/
theorem C3_counterexample :
    (∃ o ∈ obsBad, o.stop ≤ o.start) ∧
    DP.dynamic_weighted_interval_scheduling (fun o => o.weight) obsBad
      = some [⟨1, -5, 10, 15, 0, 0, 100⟩] := by
  constructor
  · decide
  · decide

/-- Claim C3 amended: neither scheduler validates intervals; on inputs
containing a task with end ≤ start both proceed with their normal
computation (rejection of such rows happens upstream, in the loader).
ant_colony_schedule returns a schedule on obsBad; on the single invalid
task obsBad1 the DP reconstruction loop of the source never terminates,
modelled by the fuelled loop returning none — in neither case is an
InvalidInterval error raised. -/
theorem C3_no_validation :
    (∃ o ∈ obsBad, o.stop ≤ o.start) ∧
    ACO.ant_colony_schedule obsBad slew0 cfgP rs1
      = [⟨1, -5, 10, 15, 0, 0, 100⟩] ∧
    (∃ o ∈ obsBad1, o.stop ≤ o.start) ∧
    DP.dynamic_weighted_interval_scheduling (fun o => o.weight) obsBad1
      = none := by
  refine ⟨by decide, by decide, by decide, by decide⟩

/-- Claim C4: at every point of an ACO run — after initialization, after
each evaporation pass and after each deposit pass — the pheromone
table has a row per task and its key set is a subset of the
candidate-graph edge set. -/
theorem C4_pheromone_sparsity (observations : List Obs)
    (slew : ℕ → ℕ → ℚ) (cfg : ACOConfig) (rs : RS) (t : ℕ) :
    ACO.pherInv observations slew cfg
      (ACO.runState observations slew cfg rs t).pher ∧
    ACO.pherInv observations slew cfg
      (ACO.evapPhase cfg (ACO.antsPhase observations slew cfg rs
        (ACO.runState observations slew cfg rs t)).1.pher) ∧
    ACO.pherInv observations slew cfg
      (ACO.depositPhase observations slew cfg
        (ACO.antsPhase observations slew cfg rs
          (ACO.runState observations slew cfg rs t)).2.1
        (ACO.antsPhase observations slew cfg rs
          (ACO.runState observations slew cfg rs t)).2.2
        (ACO.evapPhase cfg (ACO.antsPhase observations slew cfg rs
          (ACO.runState observations slew cfg rs t)).1.pher)) := by
  have h0 := ACO.runState_pherInv observations slew cfg rs t
  have h1 : ACO.pherInv observations slew cfg
      (ACO.evapPhase cfg (ACO.antsPhase observations slew cfg rs
        (ACO.runState observations slew cfg rs t)).1.pher) := by
    rw [ACO.antsPhase_pher]
    exact ACO.pherInv_evap observations slew cfg h0
  exact ⟨h0, h1, ACO.pherInv_deposit observations slew cfg _ _ h1⟩

/-- Claim C5: every successor j in the candidate list of task i
satisfies start_j ≥ end_i, and the candidate list never exceeds the
fan-out limit top_k. -/
theorem C5_candidate_bounds (observations : List Obs) (slew : ℕ → ℕ → ℚ)
    (cfg : ACOConfig) :
    (∀ i j : ℕ, j ∈ ACO.successors observations slew cfg i →
      ACO.ends observations i ≤ ACO.starts observations j) ∧
    ∀ i : ℕ, (ACO.successors observations slew cfg i).length ≤ cfg.top_k :=
  ⟨fun _ _ hj => ACO.successors_feasible observations slew cfg hj,
   fun i => ACO.successors_length observations slew cfg i⟩

/-- Claim C5 witness: the theorem applied to a concrete candidate
edge. -/
theorem C5_witness :
    1 ∈ ACO.successors obsP slew0 cfgP 0 ∧
    ACO.ends obsP 0 ≤ ACO.starts obsP 1 :=
  ⟨by decide, (C5_candidate_bounds obsP slew0 cfgP).1 0 1 (by decide)⟩

/-- Claim C6: within one run, the tracked global-best score never
decreases from one iteration to the next, for every random source. -/
theorem C6_best_monotone (observations : List Obs) (slew : ℕ → ℕ → ℚ)
    (cfg : ACOConfig) (rs : RS) (t : ℕ)
    (_hn : observations ≠ []) (_hiter : t + 1 ≤ cfg.iterations) :
    (ACO.runState observations slew cfg rs t).bestScore
      ≤ (ACO.runState observations slew cfg rs (t + 1)).bestScore := by
  rw [ACO.runState_succ]
  exact ACO.iterOnce_best_mono observations slew cfg rs _

/-- Claim C6 witness: the theorem applied to the first iteration of a
concrete run. -/
theorem C6_witness :
    obsP ≠ [] ∧ 0 + 1 ≤ cfgP.iterations ∧
    (ACO.runState obsP slew0 cfgP rs0 0).bestScore
      ≤ (ACO.runState obsP slew0 cfgP rs0 (0 + 1)).bestScore :=
  ⟨by decide, by decide,
    C6_best_monotone obsP slew0 cfgP rs0 0 (by decide) (by decide)⟩

/-- Claim C8: on the empty task list all three strategies return the
empty schedule, whose total score is zero. -/
theorem C8_empty_input (wt : Obs → ℚ) (slew : ℕ → ℕ → ℚ)
    (cfg : ACOConfig) (rs : RS) :
    DP.dynamic_weighted_interval_scheduling wt [] = some [] ∧
    Greedy.greedy_schedule [] = [] ∧
    ACO.ant_colony_schedule [] slew cfg rs = [] ∧
    totalWt wt [] = 0 :=
  ⟨rfl, rfl, rfl, rfl⟩

/-- Claim C9 counterexample: the claim fails on the code.  In iteration
2 of the concrete run on obsZ (two zero-weight tasks, evap = 1, one
ant), the set of unused start-feasible candidate successors of the last
chosen task 0 is the non-empty [1] and the selection weights sum to
zero, yet the step terminates the tour (chooseNext returns none) and the
constructed tour stays the singleton [0]: candidates whose trail and
heuristic are both zero are filtered out before the zero-total fallback
can see them. -/
theorem C9_counterexample :
    ACO.feasibleUnused obsZ slew0 cfgZ ((List.replicate 2 false).set 0 true) 0
      = [1] ∧
    ((ACO.feasibleUnused obsZ slew0 cfgZ
        ((List.replicate 2 false).set 0 true) 0).map
      (ACO.selWeight obsZ slew0 cfgZ
        (ACO.runState obsZ slew0 cfgZ rs0 1).pher 0)).sum = 0 ∧
    ACO.chooseNext obsZ slew0 cfgZ (ACO.runState obsZ slew0 cfgZ rs0 1).pher
      ((List.replicate 2 false).set 0 true) 0 rs0 2 = (none, 2) ∧
    ACO.build_ant_tour obsZ slew0 cfgZ
      (ACO.runState obsZ slew0 cfgZ rs0 1).pher rs0
      (ACO.runState obsZ slew0 cfgZ rs0 1).k = ([0], 2) := by
  refine ⟨by decide, by decide, by decide, by decide⟩

/-- Claim C9 amended: the deterministic fallback triggers on the
candidate list that survives the positivity filter (feasible unused
successors with a positive trail or heuristic): whenever that list is
non-empty and its selection weights sum to at most zero, the ant
deterministically extends the tour with its highest-scoring entry; if
instead every feasible unused successor has both zero trail and zero
heuristic, the candidate list is empty and the tour terminates. -/
theorem C9_fallback_amended (observations : List Obs) (slew : ℕ → ℕ → ℚ)
    (cfg : ACOConfig) (pher : List (List (ℕ × ℚ))) (used : List Bool)
    (last : ℕ) (rs : RS) (k : ℕ) :
    (ACO.candList observations slew cfg pher used last = [] →
      ACO.chooseNext observations slew cfg pher used last rs k = (none, k)) ∧
    (ACO.candList observations slew cfg pher used last ≠ [] →
      ((ACO.candList observations slew cfg pher used last).map Prod.fst).sum ≤ 0 →
      ∃ sc j, ACO.chooseNext observations slew cfg pher used last rs k
          = (some j, k) ∧
        (sc, j) ∈ ACO.candList observations slew cfg pher used last ∧
        ∀ p ∈ ACO.candList observations slew cfg pher used last, p.1 ≤ sc) := by
  constructor
  · intro hempty
    unfold ACO.chooseNext
    rw [hempty]
    rfl
  · intro hne htot
    have hmax := ACO.sortDesc_head_max hne
    refine ⟨((List.insertionSort
        (fun a b => b.1 < a.1 ∨ (b.1 = a.1 ∧ b.2 ≤ a.2))
        (ACO.candList observations slew cfg pher used last)).headD (0, 0)).1,
      ((List.insertionSort
        (fun a b => b.1 < a.1 ∨ (b.1 = a.1 ∧ b.2 ≤ a.2))
        (ACO.candList observations slew cfg pher used last)).headD (0, 0)).2,
      ?_, ?_, ?_⟩
    · unfold ACO.chooseNext
      dsimp only
      have hfalse : (ACO.candList observations slew cfg pher used last).isEmpty
          = false := by
        rcases hl : ACO.candList observations slew cfg pher used last with _ | ⟨a, l⟩
        · exact absurd hl hne
        · rfl
      rw [hfalse, if_neg Bool.false_ne_true, if_pos htot]
    · rw [Prod.mk.eta]
      exact hmax.1
    · exact hmax.2

/-- Claim C9 witness: the amended theorem applied in the first iteration
of the obsZ run, where the surviving candidate list is [(0, 1)] with
total zero and the ant extends with task 1. -/
theorem C9_witness :
    ACO.candList obsZ slew0 cfgZ (ACO.pher0 obsZ slew0 cfgZ) [true, false] 0
      ≠ [] ∧
    ((ACO.candList obsZ slew0 cfgZ (ACO.pher0 obsZ slew0 cfgZ)
        [true, false] 0).map Prod.fst).sum ≤ 0 ∧
    ∃ sc j, ACO.chooseNext obsZ slew0 cfgZ (ACO.pher0 obsZ slew0 cfgZ)
        [true, false] 0 rs0 5 = (some j, 5) ∧
      (sc, j) ∈ ACO.candList obsZ slew0 cfgZ (ACO.pher0 obsZ slew0 cfgZ)
        [true, false] 0 ∧
      ∀ p ∈ ACO.candList obsZ slew0 cfgZ (ACO.pher0 obsZ slew0 cfgZ)
        [true, false] 0, p.1 ≤ sc :=
  ⟨by decide, by decide,
    (C9_fallback_amended obsZ slew0 cfgZ (ACO.pher0 obsZ slew0 cfgZ)
      [true, false] 0 rs0 5).2 (by decide) (by decide)⟩

/-- Claim C10: on a non-empty input whose tasks all have weight zero,
ant_colony_schedule returns the empty schedule — the global best is only
replaced on a strict improvement over the initial 0.0 — even though
every constructed tour contains at least its seed task. -/
theorem C10_zero_weights (observations : List Obs) (slew : ℕ → ℕ → ℚ)
    (cfg : ACOConfig) (rs : RS) (_hne : observations ≠ [])
    (hw : ∀ o ∈ observations, o.weight = 0) :
    ACO.ant_colony_schedule observations slew cfg rs = [] ∧
    ∀ (pher : List (List (ℕ × ℚ))) (k : ℕ),
      (ACO.build_ant_tour observations slew cfg pher rs k).1 ≠ [] := by
  constructor
  · show (if observations.length = 0 then ([] : List Obs) else
      if (ACO.runState observations slew cfg rs
          cfg.iterations).bestSchedule.isEmpty then []
      else List.insertionSort (fun a b => a.start ≤ b.start)
        ((ACO.runState observations slew cfg rs
          cfg.iterations).bestSchedule.map
          (fun i => observations.getD i default))) = []
    by_cases h0 : observations.length = 0
    · rw [if_pos h0]
    · rw [if_neg h0]
      have hz := (ACO.runState_zero observations slew cfg hw rs
        cfg.iterations).2
      rw [hz]
      rfl
  · intro pher k
    exact ACO.build_ant_tour_ne observations slew cfg pher rs k

/-- Claim C10 witness: the theorem applied to two zero-weight tasks. -/
theorem C10_witness :
    obsZ ≠ [] ∧ (∀ o ∈ obsZ, o.weight = 0) ∧
    (ACO.ant_colony_schedule obsZ slew0 cfgZ rs0 = [] ∧
      ∀ (pher : List (List (ℕ × ℚ))) (k : ℕ),
        (ACO.build_ant_tour obsZ slew0 cfgZ pher rs0 k).1 ≠ []) :=
  ⟨by decide, by decide,
    C10_zero_weights obsZ slew0 cfgZ rs0 (by decide) (by decide)⟩
